import Mathlib

/-!
# go-translate: identifier assignment, packing and runtime lookup

A shallow embedding of the Go sources of `Ragnis/go-translate`:

* `language.go`, `data.go` : the runtime resolver (`Language`),
* `translate.go` : the registry of languages (`Domain`),
* `cmd/trpack/main.go`, `cmd/trpack/ids.go` : the string packer and the identifier extractor,
* `cmd/trgenresid/main.go` : the name set and the generator of identifier declarations.

The generator writes Go source and the extractor reads it back through go/parser and
go/types.  These packages are not part of the repository; what they do with the generated
file is modelled from go/scanner, go/token and the Go specification, for constant
declarations only, and everything else is reported as outside the model.

Conventions of the embedding.

* A Go `string` is a Lean `String`.  Every string that reaches the code comes out of
  `encoding/json` or out of a Go source file, hence is valid UTF-8, i.e. a sequence of
  Unicode scalar values; its bytes are `utf8Bytes`, and strings are ordered by their bytes.
* A Go slice is a `List`; `len` is `List.length`.  Lengths are Go `int`s and never overflow
  (a slice of strings has far fewer than `2^63` elements), so they are plain `Nat`s.
* A Go `uint`/`uint64` value is a `Nat`; arithmetic that can wrap is written with an
  explicit `% 2^64`.
* A Go map is an association list that also fixes the order in which `range` visits the
  entries (Go leaves that order unspecified, so theorems quantify over every such list).
  Where the code can meet a nil map (the zero value `Domain{}`), the map is an `Option` and
  `none` is the nil map: a lookup finds nothing in it, an assignment to it panics.
* A run-time panic (index out of range, failed allocation, `constant.StringVal` on a
  non-string) is the outer `none` of an `Option`; a returned `error` is an inner
  `Option String` / `Except String _`.
-/

namespace Translate

/-- A Go `string`. -/
abbrev GoString : Type := String

deriving instance DecidableEq for Except

/-! ## data.go -/

/-- The type `PackedStringsData` of data.go: the packed strings JSON structure. -/
structure PackedStringsData where
  /-- Lang is the language identifier. -/
  Lang : GoString
  /-- VersionHash is the resource IDs version for which this data was generated. -/
  VersionHash : GoString
  /-- Strings is a list of translations. -/
  Strings : List GoString
deriving DecidableEq, Repr

/-- The type `StringsData` of data.go: the strings JSON structure.  `Strings` is a Go map; the list
gives its entries in the order a `range` loop visits them. -/
structure StringsData where
  /-- Lang is the language identifier. -/
  Lang : GoString
  /-- Strings is a map of string and their translations. -/
  Strings : List (GoString × GoString)
deriving DecidableEq, Repr

/-! ## language.go -/

/-- The type `Language` of language.go: a group of resource values. -/
structure Language where
  name : GoString
  versionHash : GoString
  strings : List GoString
deriving DecidableEq, Repr

/-- The error text of the first guard of `addStrings`. -/
def errLanguageNames : GoString := "language names mismatch"

/-- The error text of the second guard of `addStrings` (and of `Domain.LoadStrings`). -/
def errVersionHash : GoString := "version hash mismatch"

/-- Go's builtin `copy(dst, src)`: the contents of `dst` after the call.  The first
`min (len dst) (len src)` elements of `src` overwrite those of `dst`. -/
def goCopy (dst src : List GoString) : List GoString :=
  src.take dst.length ++ dst.drop src.length

/-- The indexed store `xs[id] = s` of Go: `none` is the index-out-of-range panic. -/
def storeAt (xs : List GoString) (id : Nat) (s : GoString) : Option (List GoString) :=
  if id < xs.length then some (xs.set id s) else none

/-- The indexed load `xs[id]` of Go: `none` is the index-out-of-range panic. -/
def loadAt (xs : List GoString) (id : Nat) : Option GoString :=
  xs[id]?

/-- The method `Language.String` of language.go, lines 16-23.  `id` is a Go `uint`. -/
def Language.String (l : Language) (id : Nat) : Option GoString :=
  if id < l.strings.length then loadAt l.strings id else some ""

/-- The method `Language.ensureStringsLen` of language.go, lines 58-67.  `req` is a Go `int`.

The call `copy(l.strings[:len(l.strings)], new[:len(l.strings)])` has the fresh slice as
its *source* and the old array as its *destination*: it writes into the array that the next
statement drops, and `new` is installed as it came from `make`. -/
def Language.ensureStringsLen (l : Language) (req : Nat) : Language :=
  if req ≤ l.strings.length then l
  else
    let new : List GoString := List.replicate req ""
    let _old := goCopy (l.strings.take l.strings.length) (new.take l.strings.length)
    { l with strings := new }

/-- The loop `for id, s := range sd.Strings { if s != "" { l.strings[id] = s } }` of
`addStrings`, started at index `id` on the rest `rest` of `sd.Strings`. -/
def Language.addLoop : List GoString → Nat → List GoString → Option (List GoString)
  | strings, _, [] => some strings
  | strings, id, s :: rest =>
    if s ≠ "" then
      match storeAt strings id s with
      | none => none
      | some strings1 => Language.addLoop strings1 (id + 1) rest
    else Language.addLoop strings (id + 1) rest

/-- The method `Language.addStrings` of language.go, lines 39-56: the language after the call and the
returned error (`none` for `nil`); the outer `none` is a run-time panic. -/
def Language.addStrings (l : Language) (sd : PackedStringsData) :
    Option (Language × Option GoString) :=
  if sd.Lang ≠ l.name then some (l, some errLanguageNames)
  else if l.versionHash ≠ "" ∧ l.versionHash ≠ sd.VersionHash then some (l, some errVersionHash)
  else
    let l1 : Language := { l with name := sd.Lang, versionHash := sd.VersionHash }
    let l2 := l1.ensureStringsLen (sd.Strings.length + 1)
    match Language.addLoop l2.strings 0 sd.Strings with
    | none => none
    | some strings => some ({ l2 with strings := strings }, none)

/-! ## cmd/trpack/ids.go and cmd/trpack/main.go -/

/-- The lookup `v, ok := m[k]` in a Go map with string keys: `none` when `ok` is false. -/
def mapGet {α : Type} (m : List (GoString × α)) (k : GoString) : Option α :=
  match m with
  | [] => none
  | (k1, v) :: rest => if k = k1 then some v else mapGet rest k

/-- The store `m[k] = v` in a Go map with string keys. -/
def mapSet {α : Type} (m : List (GoString × α)) (k : GoString) (v : α) : List (GoString × α) :=
  match m with
  | [] => [(k, v)]
  | (k1, v1) :: rest => if k = k1 then (k1, v) :: rest else (k1, v1) :: mapSet rest k v

/-- The type `ResourceIDSet` of ids.go: a set of resource identifiers.  `Names` is a
`map[string]uint64`. -/
structure ResourceIDSet where
  /-- VersionHash is the VersionHash value from the resource identifiers package. -/
  VersionHash : GoString
  /-- Names maps string identifiers to their numeric counterparts. -/
  Names : List (GoString × Nat)
deriving DecidableEq, Repr

/-- The method `ResourceIDSet.MaxID` of ids.go, lines 72-80: the loop
`for _, v := range r.Names { if v > max { max = v } }` from `max = 0`. -/
def ResourceIDSet.MaxID (r : ResourceIDSet) : Nat :=
  r.Names.foldl (fun max kv => if kv.2 > max then kv.2 else max) 0

/-- The allocation `make([]string, n)` for a `uint64` length `n`: a slice of `n` empty strings.  `maxLen`
is the largest length the platform allocates (never more than the largest `int`, `2^63-1`
on a 64-bit platform); a larger request panics. -/
def makeStrings (maxLen n : Nat) : Option (List GoString) :=
  if n ≤ maxLen then some (List.replicate n "") else none

/-- The error `fmt.Errorf("no resource ID for name '%s'", name)` of `packFile`. -/
def errNoResourceID (name : GoString) : GoString :=
  "no resource ID for name '" ++ name ++ "'"

/-- The loop `for name, value := range lang.Strings` of `packFile` over the entries still
to visit: the filled slice, the error it returns, or (outer `none`) the panic of an indexed
store out of range. -/
def packLoop (ids : ResourceIDSet) :
    List GoString → List (GoString × GoString) → Option (Except GoString (List GoString))
  | strings, [] => some (.ok strings)
  | strings, (name, value) :: rest =>
    match mapGet ids.Names name with
    | none => some (.error (errNoResourceID name))
    | some id =>
      match storeAt strings id value with
      | none => none
      | some strings1 => packLoop ids strings1 rest

/-- The function `packFile` of main.go, lines 55-74, between its two file operations: `lang` is the
document `readJSON` decoded, and the result `.ok pak` is the table handed to `writeJSON`
(an `.error` is returned before `writeJSON` is reached; the outer `none` is a panic).
`ids.MaxID()+1` is `uint64` arithmetic. -/
def packFile (maxLen : Nat) (lang : StringsData) (ids : ResourceIDSet) :
    Option (Except GoString PackedStringsData) :=
  match makeStrings maxLen ((ids.MaxID + 1) % 2 ^ 64) with
  | none => none
  | some strings =>
    match packLoop ids strings lang.Strings with
    | none => none
    | some (.error e) => some (.error e)
    | some (.ok strings1) =>
      some (.ok { Lang := lang.Lang, VersionHash := ids.VersionHash, Strings := strings1 })

/-! ## cmd/trgenresid/main.go -/

/-- The UTF-8 encoding of the Unicode scalar value `v`, as a list of bytes. -/
def utf8Encode (v : Nat) : List Nat :=
  if v < 0x80 then [v]
  else if v < 0x800 then [0xC0 + v / 64, 0x80 + v % 64]
  else if v < 0x10000 then [0xE0 + v / 4096, 0x80 + v / 64 % 64, 0x80 + v % 64]
  else [0xF0 + v / 262144, 0x80 + v / 4096 % 64, 0x80 + v / 64 % 64, 0x80 + v % 64]

/-- The bytes of a Go string: the UTF-8 encoding of its scalar values. -/
def utf8Bytes (s : GoString) : List Nat :=
  s.data.flatMap (fun c => utf8Encode c.val.toNat)

/-- Go's `a <= b` on strings: the lexicographic order of the bytes. -/
def strLE (a b : GoString) : Prop := utf8Bytes a ≤ utf8Bytes b

/-- Go's `a < b` on strings: the lexicographic order of the bytes. -/
def strLT (a b : GoString) : Prop := utf8Bytes a < utf8Bytes b

instance strLE_decidable : DecidableRel strLE := fun a b =>
  inferInstanceAs (Decidable (utf8Bytes a ≤ utf8Bytes b))

instance strLT_decidable : DecidableRel strLT := fun a b =>
  inferInstanceAs (Decidable (utf8Bytes a < utf8Bytes b))

/-- The function `sort.Strings` of the Go standard library: the slice rearranged in increasing order.
Strings that compare equal are equal, so the result does not depend on the algorithm; it is
computed here by insertion. -/
def sortStrings (xs : List GoString) : List GoString :=
  xs.insertionSort strLE

/-- The function `strings.Join(elems, sep)` of the Go standard library. -/
def stringsJoin (elems : List GoString) (sep : GoString) : GoString :=
  sep.intercalate elems

/-- The type `NameSet` of trgenresid/main.go: a set of translation names.  `set` is a
`map[string]bool`. -/
structure NameSet where
  names : List GoString
  set : List (GoString × Bool)
  needSort : Bool
deriving DecidableEq, Repr

/-- The value `&NameSet{nil, make(map[string]bool), false}` that `main` starts from. -/
def NameSet.empty : NameSet :=
  { names := [], set := [], needSort := false }

/-- The method `NameSet.Add` of trgenresid/main.go, lines 92-99. -/
def NameSet.Add (ns : NameSet) (name : GoString) : NameSet :=
  match mapGet ns.set name with
  | some _ => ns
  | none =>
    { names := ns.names ++ [name], set := mapSet ns.set name true, needSort := true }

/-- The method `NameSet.Names` of trgenresid/main.go, lines 101-107: the returned slice and the set
after the call (`sort.Strings` sorts `ns.names` in place). -/
def NameSet.Names (ns : NameSet) : List GoString × NameSet :=
  if ns.needSort then
    (sortStrings ns.names, { ns with names := sortStrings ns.names })
  else (ns.names, ns)

/-- The method `NameSet.Hash` of trgenresid/main.go, lines 109-114: the returned string and the set
after the call.  `sha1hex s` stands for `hex.EncodeToString(sha1.Sum([]byte(s)))`, the
SHA-1 digest of the standard library in lower-case hexadecimal. -/
def NameSet.Hash (sha1hex : GoString → GoString) (ns : NameSet) : GoString × NameSet :=
  (sha1hex (stringsJoin ns.Names.1 ","), ns.Names.2)

/-- A call on a `NameSet`: `Add(name)` or `Names()`. -/
inductive NameSetCall where
  | add (name : GoString)
  | names
deriving DecidableEq, Repr

/-- The set after a sequence of calls. -/
def NameSet.run (ns : NameSet) : List NameSetCall → NameSet
  | [] => ns
  | .add name :: calls => (ns.Add name).run calls
  | .names :: calls => ns.Names.2.run calls

/-- The names that a sequence of calls adds. -/
def addedNames : List NameSetCall → List GoString
  | [] => []
  | .add name :: calls => name :: addedNames calls
  | .names :: calls => addedNames calls

/-- The set after `Add` was called with each name of `xs` in turn, from the empty set. -/
def NameSet.ofAdds (xs : List GoString) : NameSet :=
  xs.foldl NameSet.Add NameSet.empty

/-- The representation invariant of a `NameSet` that is reached from the empty one: `names`
has no duplicates, `set` has exactly the names of `names` as keys, and `needSort` is only
false while nothing was added. -/
structure NameSet.WF (ns : NameSet) : Prop where
  nodup : ns.names.Nodup
  keys : ∀ x, mapGet ns.set x ≠ none ↔ x ∈ ns.names
  fresh : ns.needSort = false → ns.names = []

/-! ## Go declarations (go/ast), as far as generator and extractor use them -/

/-- An expression that initialises a constant: the identifier `iota` or a literal. -/
inductive Expr where
  /-- The identifier `iota`. -/
  | iota
  /-- An integer literal. -/
  | intLit (n : Nat)
  /-- A string literal; `s` is the string it denotes. -/
  | strLit (s : GoString)
deriving DecidableEq, Repr

/-- The type expression of a constant declaration. -/
inductive TypeExpr where
  /-- An identifier (`*ast.Ident`). -/
  | ident (name : GoString)
  /-- A parenthesised type (`*ast.ParenExpr`), a type expression that is no identifier. -/
  | paren (t : TypeExpr)
deriving DecidableEq, Repr

/-- The node `ast.ValueSpec`: a line `Names Type = Values` of a constant (or variable) declaration. -/
structure ValueSpec where
  Names : List GoString
  Typ : Option TypeExpr
  Values : List Expr
deriving DecidableEq, Repr

/-- The keyword of an `ast.GenDecl`. -/
inductive Token where
  | CONST
  | VAR
  | TYPE
  | IMPORT
deriving DecidableEq, Repr

/-- A top-level declaration of a file. -/
inductive Decl where
  /-- An `*ast.GenDecl`; `Specs` are its `ValueSpec`s (all its specs when `Tok` is `CONST`). -/
  | gen (Tok : Token) (Specs : List ValueSpec)
  /-- An `*ast.FuncDecl`. -/
  | func (name : GoString)
deriving DecidableEq, Repr

/-- The node `ast.File`: the package name and the top-level declarations. -/
structure File where
  Name : GoString
  Decls : List Decl
deriving DecidableEq, Repr

/-- The type `constant.Value` of go/constant, by kind; floating-point and complex values are one
kind without content. -/
inductive Value where
  | unknown
  | bool (b : Bool)
  | str (s : GoString)
  | int (z : Int)
  | float
deriving DecidableEq, Repr

/-- The type `types.Object` of go/types: a constant with its type (`none` for an untyped constant)
and value, or an object of another kind. -/
inductive Object where
  | Const (typ : Option GoString) (val : Value)
  | other
deriving DecidableEq, Repr

/-- The `defs` map that the type check fills.  The identifiers that `LoadPackage` looks up
are package-level constant names other than `_`, each declared once in a package that
type-checks, so the map is keyed by name. -/
abbrev Defs : Type := List (GoString × Object)

/-- The function `constant.StringVal`: the string of a String value, `""` for Unknown, and a panic
(`none`) for a value of another kind. -/
def StringVal : Value → Option GoString
  | .str s => some s
  | .unknown => some ""
  | _ => none

/-- The function `constant.Uint64Val`: for an Int value the `uint64` and whether it is exact (the inner
`none` is `ok == false`), `(0, false)` for Unknown, and a panic (outer `none`) for a value
of another kind. -/
def Uint64Val : Value → Option (Option Nat)
  | .int (.ofNat n) => some (if n < 2 ^ 64 then some n else none)
  | .int (.negSucc _) => some none
  | .unknown => some none
  | _ => none

/-- What the model says of a parse or of a type check, both of which are done by packages
that are not part of the repository. -/
inductive Checked (α : Type) where
  /-- The file parses, or the package type-checks, with this result. -/
  | ok (a : α)
  /-- The parser or the type checker reports an error. -/
  | error (msg : GoString)
  /-- The input is outside the modelled part of Go: the model says nothing of it. -/
  | unmodelled
deriving DecidableEq, Repr

/-- Two results together: an `error` in either wins over `unmodelled`. -/
def Checked.both {α β γ : Type} (f : α → β → γ) : Checked α → Checked β → Checked γ
  | .error e, _ => .error e
  | _, .error e => .error e
  | .unmodelled, _ => .unmodelled
  | _, .unmodelled => .unmodelled
  | .ok a, .ok b => .ok (f a b)

/-- All results of a list, when every one is `ok`; an `error` among them wins over
`unmodelled`. -/
def Checked.all {α : Type} : List (Checked α) → Checked (List α)
  | [] => .ok []
  | c :: cs => Checked.both List.cons c (Checked.all cs)

/-! ### Identifiers of Go (go/scanner and go/token)

The scanner is not part of the repository.  The definitions below follow `isLetter`,
`isDigit` and `scanIdentifier` of go/scanner and the keyword table of go/token. -/

/-- The tables of the package unicode that go/scanner consults for a character beyond ASCII:
whether it is a letter, and whether it is a decimal digit. -/
structure UnicodeTables where
  IsLetter : Char → Bool
  IsDigit : Char → Bool

/-- The function `isLetter` of go/scanner: an ASCII letter, `_`, or a letter beyond ASCII. -/
def isLetter (u : UnicodeTables) (ch : Char) : Bool :=
  ch.isAlpha || ch == '_' || (decide (0x80 ≤ ch.toNat) && u.IsLetter ch)

/-- The function `isDigit` of go/scanner: an ASCII decimal digit, or a decimal digit beyond
ASCII. -/
def isDigit (u : UnicodeTables) (ch : Char) : Bool :=
  ch.isDigit || (decide (0x80 ≤ ch.toNat) && u.IsDigit ch)

/-- The keywords of Go (go/token): a word of this list is scanned as its keyword, never as
an identifier. -/
def keywords : List GoString :=
  ["break", "case", "chan", "const", "continue", "default", "defer", "else", "fallthrough",
   "for", "func", "go", "goto", "if", "import", "interface", "map", "package", "range",
   "return", "select", "struct", "switch", "type", "var"]

/-- Whether the scanner reads the string as one identifier: a letter followed by letters and
digits, and no keyword. -/
def isIdentifier (u : UnicodeTables) (s : GoString) : Bool :=
  match s.data with
  | [] => false
  | ch :: rest =>
    isLetter u ch && rest.all (fun c => isLetter u c || isDigit u c) && !(keywords.contains s)

/-- Whether a character of a path on the command line leaves the header comment of the
generated file one `//` comment: the comment ends at a line feed, and the scanner rejects
NUL and a byte order mark.  Every control character is excluded here. -/
def commentChar (ch : Char) : Bool :=
  decide (0x20 ≤ ch.toNat) && decide (ch.toNat ≠ 0x7f) && decide (ch.toNat ≠ 0xfeff)

/-- Whether a character printed between double quotes stands for itself in the interpreted
string literal that results: a printable ASCII character other than `"` and `\`.  The
hexadecimal digits that `Hash()` returns are of this kind. -/
def literalChar (ch : Char) : Bool :=
  decide (0x20 ≤ ch.toNat) && decide (ch.toNat < 0x7f) && ch != '"' && ch != '\\'

/-- Tables that hold no character: with them the identifiers are the words of ASCII
letters, digits and `_`.  They serve in the examples. -/
def asciiTables : UnicodeTables :=
  { IsLetter := fun _ => false, IsDigit := fun _ => false }

/-! ### The generator (`main` of cmd/trgenresid/main.go) -/

/-- The lines that the loop `for i, name := range names.Names()` of `main` prints inside
`const ( ... )`, from index `i` on: the name, followed by ` uint = iota` when `i == 0`. -/
def resourceSpecs : Nat → List GoString → List ValueSpec
  | _, [] => []
  | i, name :: rest =>
    { Names := [name],
      Typ := if i = 0 then some (.ident "uint") else none,
      Values := if i = 0 then [.iota] else [] } :: resourceSpecs (i + 1) rest

/-- The text that the loop `for i, name := range names.Names()` of `main` prints (lines
47-53), from index `i` on: a tab, the name, ` uint = iota` when `i == 0`, and a line feed. -/
def resourceLines : Nat → List GoString → GoString
  | _, [] => ""
  | i, name :: rest =>
    "\t" ++ name ++ (if i = 0 then " uint = iota" else "") ++ "\n" ++ resourceLines (i + 1) rest

/-- The text that `main` of trgenresid prints into its buffer (lines 35-55): `args` is
`os.Args[1:]`, `gopackage` the value of `GOPACKAGE`.  `Hash()` is called before `Names()`. -/
def generatedSource (args : List GoString) (gopackage : GoString)
    (sha1hex : GoString → GoString) (ns : NameSet) : GoString :=
  "// Code generated by \"trgenresid " ++ stringsJoin args " " ++ "\"; DO NOT EDIT.\n" ++
  "\n" ++
  "package " ++ gopackage ++
  "\n" ++
  "// VersionHash is a string uniquely identifying this set of resource IDs\n" ++
  "const VersionHash = \"" ++ (ns.Hash sha1hex).1 ++ "\"\n" ++
  "\n" ++
  "// Resource identifiers\n" ++
  "const (\n" ++
  resourceLines 0 (ns.Hash sha1hex).2.Names.1 ++
  ")\n"

/-! ### Reading the generated file back (go/parser)

The parser is not part of the repository.  `parseGenerated` reads the one shape of source
text that the generator is meant to print, line by line, and gives the syntax tree that
go/parser gives for it; every other text is reported as `unmodelled`. -/

/-- The lines of a text: the pieces between its line feeds. -/
def splitLines : List Char → List (List Char)
  | [] => [[]]
  | c :: cs =>
    if c = '\n' then [] :: splitLines cs
    else
      match splitLines cs with
      | [] => [[c]]
      | l :: ls => (c :: l) :: ls

/-- What follows `p` in `l`, when `l` begins with `p`. -/
def dropLeading : List Char → List Char → Option (List Char)
  | [], l => some l
  | _ :: _, [] => none
  | a :: p, b :: l => if a = b then dropLeading p l else none

/-- What precedes `s` in `l`, when `l` ends with `s`. -/
def dropTrailing (s l : List Char) : Option (List Char) :=
  (dropLeading s.reverse l.reverse).map List.reverse

/-- Whether a line is one `//` comment without control characters. -/
def isLineComment (l : List Char) : Bool :=
  match dropLeading ['/', '/'] l with
  | some rest => rest.all commentChar
  | none => false

/-- The ConstSpecs of the lines from line number `i` of a parenthesised constant
declaration on, up to the closing `)` on the last line of the text (after its line feed
comes the empty rest): line `0` is a tab, an identifier and ` uint = iota`, every other
line a tab and an identifier. -/
def parseSpecs (u : UnicodeTables) : Nat → List (List Char) → Option (List ValueSpec)
  | _, [] => none
  | i, l :: rest =>
    if l = [')'] then (if rest = [[]] then some [] else none)
    else
      match (if i = 0 then (dropLeading ['\t'] l).bind (dropTrailing " uint = iota".data)
             else dropLeading ['\t'] l) with
      | none => none
      | some n =>
        if isIdentifier u (String.mk n) = true then
          match parseSpecs u (i + 1) rest with
          | none => none
          | some specs =>
            some ({ Names := [String.mk n],
                    Typ := if i = 0 then some (.ident "uint") else none,
                    Values := if i = 0 then [.iota] else [] } :: specs)
        else none

/-- The syntax tree that go/parser gives for a source text of the shape

    // comment
    (empty line)
    package NAME
    // comment
    const VersionHash = "HASH"
    (empty line)
    // comment
    const (
    (tab)NAME0 uint = iota
    (tab)NAME1
    ...
    )

where the package name and the names are identifiers and the hash stands for itself
between the quotes.  Another text is some other Go source, or none: `unmodelled`. -/
def parseGenerated (u : UnicodeTables) (src : GoString) : Checked File :=
  match splitLines src.data with
  | l0 :: l1 :: l2 :: l3 :: l4 :: l5 :: l6 :: l7 :: rest =>
    match dropLeading "package ".data l2,
      (dropLeading "const VersionHash = \"".data l4).bind (dropTrailing ['"']),
      parseSpecs u 0 rest with
    | some p, some h, some specs =>
      if isLineComment l0 = true ∧ l1 = [] ∧ isIdentifier u (String.mk p) = true ∧
          isLineComment l3 = true ∧ h.all literalChar = true ∧ l5 = [] ∧
          isLineComment l6 = true ∧ l7 = "const (".data then
        .ok { Name := String.mk p,
              Decls :=
                [.gen .CONST [{ Names := ["VersionHash"], Typ := none,
                                Values := [.strLit (String.mk h)] }],
                 .gen .CONST specs] }
      else .unmodelled
    | _, _, _ => .unmodelled
  | _ => .unmodelled

/-- The file that `main` of trgenresid writes, as go/parser reads it back: the syntax tree
of the text `generatedSource`.  `format.Source` formats that text without changing its
declarations (and fails, so that an empty file is written, when the text does not
parse). -/
def generatedFile (u : UnicodeTables) (args : List GoString) (gopackage : GoString)
    (sha1hex : GoString → GoString) (ns : NameSet) : Checked File :=
  parseGenerated u (generatedSource args gopackage sha1hex ns)

/-! ### Constant declarations of Go (the part of go/types that `check` runs)

The type checker is not part of the repository.  The definitions below follow the Go
specification ("Constant declarations", "Iota", "Declarations and scope") for packages
whose declarations are constant declarations with initialisers `iota` or literals and
with predeclared integer, string or boolean types.  What lies outside is reported as
`unmodelled`, never as accepted or rejected. -/

/-- A constant of a constant declaration after implicit repetition: its name, the index of
its ConstSpec in the declaration (the value of `iota`), and the type and initialiser that
the spec has or inherits. -/
structure ConstBinding where
  name : GoString
  iota : Nat
  typ : Option TypeExpr
  init : Expr
deriving DecidableEq, Repr

/-- The constants of one constant declaration, from ConstSpec number `i` on.  A spec with
neither type nor expression list repeats the type and expression list of `last`, the
nearest preceding spec that has one; the number of names must equal the number of
expressions. -/
def bindSpecs : Option ValueSpec → Nat → List ValueSpec → Except GoString (List ConstBinding)
  | _, _, [] => .ok []
  | last, i, s :: rest =>
    let src : ValueSpec :=
      if s.Typ.isSome ∨ s.Values ≠ [] then s else last.getD { Names := [], Typ := none, Values := [] }
    if s.Names.length ≠ src.Values.length then .error "missing or extra init expr"
    else
      match bindSpecs (some src) (i + 1) rest with
      | .error e => .error e
      | .ok bs => .ok ((s.Names.zip src.Values).map (fun p => ⟨p.1, i, src.Typ, p.2⟩) ++ bs)

/-- The value of the initialiser of a constant when `iota` is the predeclared identifier:
the index of the ConstSpec for `iota`, the literal's value otherwise. -/
def ConstBinding.value (b : ConstBinding) : Value :=
  match b.init with
  | .iota => .int b.iota
  | .intLit n => .int n
  | .strLit s => .str s

/-- The constants of all constant declarations of a list of declarations; `none` when a
declaration is not a constant declaration. -/
def bindDecls : List Decl → Option (Except GoString (List ConstBinding))
  | [] => some (.ok [])
  | .gen .CONST specs :: rest =>
    match bindSpecs none 0 specs, bindDecls rest with
    | _, none => none
    | .error e, some _ => some (.error e)
    | .ok _, some (.error e) => some (.error e)
    | .ok bs, some (.ok bs1) => some (.ok (bs ++ bs1))
  | _ :: _ => none

/-- The predeclared integer types with their ranges, for the sizes go/types assumes by
default (64-bit `int`, `uint` and `uintptr`). -/
def integerTypes : List (GoString × (Int × Int)) :=
  [("int", (-(2 ^ 63), 2 ^ 63 - 1)), ("int8", (-(2 ^ 7), 2 ^ 7 - 1)),
   ("int16", (-(2 ^ 15), 2 ^ 15 - 1)), ("int32", (-(2 ^ 31), 2 ^ 31 - 1)),
   ("int64", (-(2 ^ 63), 2 ^ 63 - 1)), ("uint", (0, 2 ^ 64 - 1)), ("uint8", (0, 2 ^ 8 - 1)),
   ("uint16", (0, 2 ^ 16 - 1)), ("uint32", (0, 2 ^ 32 - 1)), ("uint64", (0, 2 ^ 64 - 1)),
   ("uintptr", (0, 2 ^ 64 - 1)), ("byte", (0, 2 ^ 8 - 1)), ("rune", (-(2 ^ 31), 2 ^ 31 - 1))]

/-- The kind of a type that a constant of the modelled part can have. -/
inductive TypeKind where
  | integer (lo hi : Int)
  | string
  | bool
deriving DecidableEq, Repr

/-- The type that a type expression denotes in a package whose package-level names are
`declared` (all of them constants): a declared name is no type; otherwise the name must be
predeclared as a type that constants can have.  Floating-point and complex types are not
modelled. -/
def resolveType (declared : List GoString) : TypeExpr → Checked (GoString × TypeKind)
  | .paren t => resolveType declared t
  | .ident n =>
    if n ∈ declared then .error (n ++ " is not a type")
    else
      match mapGet integerTypes n with
      | some (lo, hi) => .ok (n, .integer lo hi)
      | none =>
        if n = "string" then .ok (n, .string)
        else if n = "bool" then .ok (n, .bool)
        else if n ∈ ["float32", "float64", "complex64", "complex128"] then .unmodelled
        else .error ("undefined or invalid constant type: " ++ n)

/-- The value of the initialiser of a constant in a package whose package-level names are
`declared`.  A package-level constant named `iota` hides the predeclared `iota`: its own
initialiser `iota` then refers to itself, an initialisation cycle, and other uses of `iota`
refer to that constant (not modelled). -/
def initValue (declared : List GoString) (b : ConstBinding) : Checked Value :=
  match b.init with
  | .iota =>
    if "iota" ∈ declared then
      if b.name = "iota" then .error "initialization cycle: iota refers to itself"
      else .unmodelled
    else .ok b.value
  | _ => .ok b.value

/-- The constant that a declaration with type `typ` and initial value `v` declares: an
untyped constant keeps its value (the model stops at 512 bits), a typed one must be given a
value of its kind, an integer within the range of the type. -/
def assignConst : Option (GoString × TypeKind) → Value → Checked Object
  | none, .int z => if z.natAbs < 2 ^ 512 then .ok (.Const none (.int z)) else .unmodelled
  | none, v => .ok (.Const none v)
  | some (n, .integer lo hi), .int z =>
    if lo ≤ z ∧ z ≤ hi then .ok (.Const (some n) (.int z))
    else .error ("constant overflows " ++ n)
  | some (n, .string), .str s => .ok (.Const (some n) (.str s))
  | some (n, _), _ => .error ("cannot use constant as " ++ n ++ " value in constant declaration")

/-- The object that one constant of the package defines. -/
def checkBinding (declared : List GoString) (b : ConstBinding) : Checked (GoString × Object) :=
  let typ : Checked (Option (GoString × TypeKind)) :=
    match b.typ with
    | none => .ok none
    | some t =>
      match resolveType declared t with
      | .ok k => .ok (some k)
      | .error e => .error e
      | .unmodelled => .unmodelled
  match Checked.both Prod.mk typ (initValue declared b) with
  | .error e => .error e
  | .unmodelled => .unmodelled
  | .ok (t, v) =>
    match assignConst t v with
    | .ok obj => .ok (b.name, obj)
    | .error e => .error e
    | .unmodelled => .unmodelled

/-- The first name of a list that occurs again later in it. -/
def firstDuplicate : List GoString → Option GoString
  | [] => none
  | n :: rest => if n ∈ rest then some n else firstDuplicate rest

/-- The loop of go/types (`initFiles`) that determines the package name, with the name found
so far (`""` at the start, since `check` passes no name): the first file gives the name,
which must not be `_`, and every other file must have the same name.  The result is the
first error. -/
def checkPackageNames : GoString → List File → Option GoString
  | _, [] => none
  | pkgName, file :: rest =>
    if pkgName = "" then
      if file.Name ≠ "_" then checkPackageNames file.Name rest
      else some "invalid package name _"
    else if file.Name = pkgName then checkPackageNames pkgName rest
    else some ("package " ++ file.Name ++ "; expected " ++ pkgName)

/-- The type check that `check` of ids.go runs (`conf.Check` of go/types with
`info.Defs`), for the files of one package: the first error, or the objects of the
package-level constants other than `_`.  The package name is checked first.  A name is
declared once in the package block; `init`, and `main` in package `main`, can only be
functions. -/
def goCheck (files : List File) : Checked Defs :=
  match checkPackageNames "" files with
  | some e => .error e
  | none =>
    match bindDecls (files.flatMap (fun f => f.Decls)) with
    | none => .unmodelled
    | some (.error e) => .error e
    | some (.ok bs) =>
      let declared := (bs.map (fun b => b.name)).filter (fun n => n ≠ "_")
      if "init" ∈ declared then .error "cannot declare init - must be func"
      else if "main" ∈ declared ∧ (files.any (fun f => f.Name = "main")) = true then
        .error "cannot declare main - must be func"
      else
        match firstDuplicate declared with
        | some n => .error (n ++ " redeclared in this block")
        | none =>
          match Checked.all (bs.map (checkBinding declared)) with
          | .ok objs => .ok (objs.filter (fun p => p.1 ≠ "_"))
          | .error e => .error e
          | .unmodelled => .unmodelled

/-! ### The extractor (cmd/trpack/ids.go) -/

/-- The loop over `decl.Specs` in `findVersionHashIdent` (ids.go, lines 135-159): the
identifier it returns, `none` when it runs to the end.  `typ` is declared inside the loop
body, so it is `""` for a spec without a type. -/
def versionHashInSpecs : List ValueSpec → Option GoString
  | [] => none
  | vspec :: rest =>
    match vspec.Typ with
    | some (.paren _) => versionHashInSpecs rest
    | some (.ident typ) =>
      if typ ≠ "" ∧ typ ≠ "string" then versionHashInSpecs rest
      else
        match vspec.Names.find? (fun name => name = "VersionHash") with
        | some name => some name
        | none => versionHashInSpecs rest
    | none =>
      match vspec.Names.find? (fun name => name = "VersionHash") with
      | some name => some name
      | none => versionHashInSpecs rest

/-- The loop over `file.Decls` in `findVersionHashIdent`. -/
def versionHashInDecls : List Decl → Option GoString
  | [] => none
  | .gen .CONST specs :: rest =>
    match versionHashInSpecs specs with
    | some name => some name
    | none => versionHashInDecls rest
  | _ :: rest => versionHashInDecls rest

/-- The function `findVersionHashIdent` of ids.go, lines 124-164: the identifier of the `VersionHash`
constant, `none` for `nil`.  Its error result is always `nil`. -/
def findVersionHashIdent : List File → Option GoString
  | [] => none
  | file :: rest =>
    match versionHashInDecls file.Decls with
    | some name => some name
    | none => findVersionHashIdent rest

/-- The loop over `decl.Specs` in `findResourceIDIdents` (ids.go, lines 181-205), with the
current value of `typ`. -/
def resourceIDsInSpecs : GoString → List ValueSpec → List GoString
  | _, [] => []
  | typ, vspec :: rest =>
    if vspec.Typ = none ∧ vspec.Values.length > 0 then resourceIDsInSpecs "" rest
    else
      match vspec.Typ with
      | some (.paren _) => resourceIDsInSpecs typ rest
      | some (.ident name) =>
        if name ≠ "uint" then resourceIDsInSpecs name rest
        else vspec.Names.filter (fun n => n ≠ "_") ++ resourceIDsInSpecs name rest
      | none =>
        if typ ≠ "uint" then resourceIDsInSpecs typ rest
        else vspec.Names.filter (fun n => n ≠ "_") ++ resourceIDsInSpecs typ rest

/-- The loop over `file.Decls` in `findResourceIDIdents`. -/
def resourceIDsInDecls : List Decl → List GoString
  | [] => []
  | .gen .CONST specs :: rest => resourceIDsInSpecs "" specs ++ resourceIDsInDecls rest
  | _ :: rest => resourceIDsInDecls rest

/-- The function `findResourceIDIdents` of ids.go, lines 166-209: the identifiers that could represent a
resource ID.  Its error result is always `nil`. -/
def findResourceIDIdents (files : List File) : List GoString :=
  files.flatMap (fun file => resourceIDsInDecls file.Decls)

/-- The error `fmt.Errorf("no value for constant '%s'", name)`. -/
def errNoValue (name : GoString) : GoString :=
  "no value for constant '" ++ name ++ "'"

/-- The error `fmt.Errorf("value of constant '%s' is not an integer", name)`. -/
def errNotInteger (name : GoString) : GoString :=
  "value of constant '" ++ name ++ "' is not an integer"

/-- The part "read VersionHash value" of `LoadPackage` (ids.go, lines 47-55) for the
identifier found, `none` for `nil`; the outer `none` is a panic. -/
def readVersionHash (defs : Defs) : Option GoString → Option (Except GoString GoString)
  | none => some (.ok "")
  | some ident =>
    match mapGet defs ident with
    | none => some (.error (errNoValue "VersionHash"))
    | some .other => none
    | some (.Const _ value) =>
      match StringVal value with
      | none => none
      | some s => some (.ok s)

/-- The loop "read the ident values" of `LoadPackage` (ids.go, lines 61-68) over the
identifiers still to read, with the current `r.Names`; the outer `none` is a panic. -/
def readIdentValues (defs : Defs) :
    List (GoString × Nat) → List GoString → Option (Except GoString (List (GoString × Nat)))
  | names, [] => some (.ok names)
  | names, ident :: rest =>
    match mapGet defs ident with
    | none => some (.error (errNoValue ident))
    | some .other => none
    | some (.Const _ value) =>
      match Uint64Val value with
      | none => none
      | some none => some (.error (errNotInteger ident))
      | some (some u64) => readIdentValues defs (mapSet names ident u64) rest

/-- The method `ResourceIDSet.LoadPackage` of ids.go, lines 21-70, after `parsePackageFiles` returned
`files` and `check` returned `checked` (its error, or the `defs` it filled): the set it
leaves in `r` when it returns `nil`, or the error it returns; the outer `none` is a
panic. -/
def LoadPackage (files : List File) (checked : Except GoString Defs) :
    Option (Except GoString ResourceIDSet) :=
  match checked with
  | .error e => some (.error e)
  | .ok defs =>
    match readVersionHash defs (findVersionHashIdent files) with
    | none => none
    | some (.error e) => some (.error e)
    | some (.ok versionHash) =>
      match readIdentValues defs [] (findResourceIDIdents files) with
      | none => none
      | some (.error e) => some (.error e)
      | some (.ok names) => some (.ok { VersionHash := versionHash, Names := names })

/-- The constants that the resource identifier block declares, from index `i` on: the
`k`-th name with `iota = k`, type `uint` and initialiser `iota`. -/
def resourceBindings : Nat → List GoString → List ConstBinding
  | _, [] => []
  | i, name :: rest => ⟨name, i, some (.ident "uint"), .iota⟩ :: resourceBindings (i + 1) rest

/-- The names numbered from `i` on. -/
def numbered : Nat → List GoString → List (GoString × Nat)
  | _, [] => []
  | i, name :: rest => (name, i) :: numbered (i + 1) rest

/-! ## translate.go -/

/-- The type `Domain` of translate.go: a set of loaded languages.  `langs` is a
`map[string]*Language`: `none` is the nil map of the zero value `Domain{}`, `some m` an
allocated map.  Every pointer in the map belongs to one key, so the map is given with the
languages themselves as values. -/
structure Domain where
  langs : Option (List (GoString × Language))
  versionHash : GoString
deriving DecidableEq, Repr

/-- The function `NewDomain` of translate.go, lines 18-23: a new empty translation domain, with
`langs: make(map[string]*Language)`. -/
def NewDomain : Domain :=
  { langs := some [], versionHash := "" }

/-- The method `Domain.SetVersionHash` of translate.go, lines 25-29. -/
def Domain.SetVersionHash (d : Domain) (h : GoString) : Domain :=
  { d with versionHash := h }

/-- The method `Domain.LoadStrings` of translate.go, lines 39-59, from line 50 on: `sd` is
the table that `json.NewDecoder(f).Decode` filled.  The result is the domain after the call
and the returned error (`none` for `nil`); the outer `none` is a run-time panic.

The lookup `d.langs[sd.Lang]` finds nothing in a nil map, and the assignment
`d.langs[sd.Lang] = lang` that follows panics on a nil map.  The language is in the map by
pointer, so what `addStrings` does to it is seen through the map. -/
def Domain.LoadStrings (d : Domain) (sd : PackedStringsData) :
    Option (Domain × Option GoString) :=
  if d.versionHash ≠ "" ∧ d.versionHash ≠ sd.VersionHash then some (d, some errVersionHash)
  else
    match d.langs with
    | none => none
    | some m =>
      let found : List (GoString × Language) × Language :=
        match mapGet m sd.Lang with
        | some lang => (m, lang)
        | none =>
          (mapSet m sd.Lang { name := sd.Lang, versionHash := "", strings := [] },
           { name := sd.Lang, versionHash := "", strings := [] })
      match found.2.addStrings sd with
      | none => none
      | some (lang1, err) => some ({ d with langs := some (mapSet found.1 sd.Lang lang1) }, err)

/-- The text of the error `errors.New("unknown language: " + name)`. -/
def errUnknownLanguage (name : GoString) : GoString :=
  "unknown language: " ++ name

/-- The method `Domain.Language` of translate.go, lines 31-37: the loaded language of that
name, or the error.  A nil map holds no language. -/
def Domain.Language (d : Domain) (name : GoString) : Except GoString Language :=
  match d.langs with
  | none => .error (errUnknownLanguage name)
  | some m =>
    match mapGet m name with
    | some l => .ok l
    | none => .error (errUnknownLanguage name)

end Translate

/-! # Theorems -/

namespace Translate

/-! ## Runtime resolver (language.go) -/

theorem storeAt_eq_some {xs : List GoString} {id : Nat} (s : GoString) (h : id < xs.length) :
    storeAt xs id s = some (xs.set id s) := by
  simp [storeAt, h]

/-- The slot `j` of the result of the merge loop: the incoming string when `j` is the
position of a non-empty incoming string, the previous content otherwise. -/
theorem addLoop_spec (rest : List GoString) :
    ∀ (strings : List GoString) (id : Nat), id + rest.length ≤ strings.length →
      ∃ r, Language.addLoop strings id rest = some r ∧ r.length = strings.length ∧
        ∀ j, r[j]? =
          if id ≤ j ∧ (rest.getD (j - id) "") ≠ "" then some (rest.getD (j - id) "")
          else strings[j]? := by
  induction rest with
  | nil =>
    intro strings id _
    exact ⟨strings, rfl, rfl, by intro j; simp⟩
  | cons s rest ih =>
    intro strings id hlen
    simp only [List.length_cons] at hlen
    by_cases hs : s = ""
    · obtain ⟨r, hr, hl, hj⟩ := ih strings (id + 1) (by omega)
      refine ⟨r, ?_, hl, ?_⟩
      · simp [Language.addLoop, hs, hr]
      · intro j
        rw [hj j]
        by_cases hji : id + 1 ≤ j
        · have e : j - id = (j - (id + 1)) + 1 := by omega
          have h1 : id ≤ j := by omega
          simp [hji, h1, e]
        · by_cases hj0 : id ≤ j
          · have e : j - id = 0 := by omega
            simp [hji, hj0, e, hs]
          · simp [hji, hj0]
    · have hid : id < strings.length := by omega
      obtain ⟨r, hr, hl, hj⟩ := ih (strings.set id s) (id + 1) (by simp; omega)
      refine ⟨r, ?_, by simpa using hl, ?_⟩
      · simp [Language.addLoop, hs, storeAt_eq_some s hid, hr]
      · intro j
        rw [hj j]
        by_cases hji : id + 1 ≤ j
        · have e : j - id = (j - (id + 1)) + 1 := by omega
          have h1 : id ≤ j := by omega
          have h2 : id ≠ j := by omega
          simp [hji, h1, e, List.getElem?_set, h2]
        · by_cases hj0 : id ≤ j
          · have e : j - id = 0 := by omega
            have h2 : id = j := by omega
            subst h2
            simp [hs, List.getElem?_set, hid]
          · have h2 : id ≠ j := by omega
            simp [hji, hj0, List.getElem?_set, h2]

theorem ensureStringsLen_strings (l : Language) (req : Nat) :
    (l.ensureStringsLen req).strings =
      if req ≤ l.strings.length then l.strings else List.replicate req "" := by
  unfold Language.ensureStringsLen
  split <;> rfl

theorem ensureStringsLen_length (l : Language) (req : Nat) :
    (l.ensureStringsLen req).strings.length = max l.strings.length req := by
  rw [ensureStringsLen_strings]
  split
  · omega
  · simp; omega

theorem ensureStringsLen_name (l : Language) (req : Nat) :
    (l.ensureStringsLen req).name = l.name ∧
      (l.ensureStringsLen req).versionHash = l.versionHash := by
  unfold Language.ensureStringsLen
  split <;> exact ⟨rfl, rfl⟩

/-- An accepted call of `addStrings`: it returns `nil`, binds name and fingerprint, and each
slot holds the incoming string where that is non-empty and otherwise what
`ensureStringsLen` left there. -/
theorem addStrings_accept (l : Language) (sd : PackedStringsData) (hl : sd.Lang = l.name)
    (hv : l.versionHash = "" ∨ l.versionHash = sd.VersionHash) :
    ∃ strings, l.addStrings sd = some (⟨sd.Lang, sd.VersionHash, strings⟩, none) ∧
      strings.length = max l.strings.length (sd.Strings.length + 1) ∧
      ∀ j, strings[j]? =
        if (sd.Strings.getD j "") ≠ "" then some (sd.Strings.getD j "")
        else (if sd.Strings.length + 1 ≤ l.strings.length then l.strings
              else List.replicate (sd.Strings.length + 1) "")[j]? := by
  have hguard : ¬ (l.versionHash ≠ "" ∧ l.versionHash ≠ sd.VersionHash) := by
    rcases hv with h | h <;> simp [h]
  obtain ⟨r, hr, hlen, hj⟩ := addLoop_spec sd.Strings
    (Language.ensureStringsLen ⟨sd.Lang, sd.VersionHash, l.strings⟩
      (sd.Strings.length + 1)).strings 0
    (by rw [ensureStringsLen_length]; simp)
  refine ⟨r, ?_, ?_, ?_⟩
  · unfold Language.addStrings
    rw [if_neg (by simp [hl]), if_neg hguard]
    simp only [hr, (ensureStringsLen_name _ _).1, (ensureStringsLen_name _ _).2]
  · rw [hlen, ensureStringsLen_length]
  · intro j
    rw [hj j, ensureStringsLen_strings]
    simp

/-- A call of `addStrings` returns (it never panics), and it returns `nil` only from the
accepting branch. -/
theorem addStrings_cases (l : Language) (sd : PackedStringsData) :
    l.addStrings sd = some (l, some errLanguageNames) ∧ sd.Lang ≠ l.name ∨
    l.addStrings sd = some (l, some errVersionHash) ∧ sd.Lang = l.name ∧
      l.versionHash ≠ "" ∧ l.versionHash ≠ sd.VersionHash ∨
    (∃ l1, l.addStrings sd = some (l1, none)) ∧ sd.Lang = l.name ∧
      (l.versionHash = "" ∨ l.versionHash = sd.VersionHash) := by
  by_cases hl : sd.Lang = l.name
  · by_cases hg : l.versionHash ≠ "" ∧ l.versionHash ≠ sd.VersionHash
    · right; left
      refine ⟨?_, hl, hg.1, hg.2⟩
      unfold Language.addStrings
      rw [if_neg (by simp [hl]), if_pos hg]
    · right; right
      have hv : l.versionHash = "" ∨ l.versionHash = sd.VersionHash := by
        by_cases h : l.versionHash = ""
        · exact Or.inl h
        · right
          by_contra h2
          exact hg ⟨h, h2⟩
      obtain ⟨strings, h, _⟩ := addStrings_accept l sd hl hv
      exact ⟨⟨_, h⟩, hl, hv⟩
  · left
    refine ⟨?_, hl⟩
    unfold Language.addStrings
    rw [if_pos hl]

/-- C2. Fingerprint mismatch is rejected atomically: on a language whose bound fingerprint
is non-empty, a table for the language's own name makes `addStrings` return the
version-hash-mismatch error exactly when the table's fingerprint differs from the bound one,
and a call that returns that error leaves name, fingerprint and strings as they were. -/
theorem addStrings_version_hash_mismatch_atomic (l : Language) (sd : PackedStringsData)
    (hh : l.versionHash ≠ "") (hl : sd.Lang = l.name) :
    ((∃ l1, l.addStrings sd = some (l1, some errVersionHash)) ↔
        sd.VersionHash ≠ l.versionHash) ∧
    (∀ l1, l.addStrings sd = some (l1, some errVersionHash) →
        l1.name = l.name ∧ l1.versionHash = l.versionHash ∧ l1.strings = l.strings) := by
  rcases addStrings_cases l sd with ⟨_, h⟩ | ⟨h, _, _, hne⟩ | ⟨⟨l2, h⟩, _, hv⟩
  · exact absurd hl h
  · constructor
    · exact ⟨fun _ e => hne e.symm, fun _ => ⟨l, h⟩⟩
    · intro l1 h1
      rw [h] at h1
      cases h1
      exact ⟨rfl, rfl, rfl⟩
  · have hv1 : l.versionHash = sd.VersionHash := hv.resolve_left hh
    constructor
    · constructor
      · rintro ⟨l1, h1⟩
        rw [h] at h1
        cases h1
      · intro hne
        exact absurd hv1.symm hne
    · intro l1 h1
      rw [h] at h1
      cases h1

/-- Witness of C2: the language `en` bound to fingerprint `h1` and a table with `h2`. -/
theorem addStrings_version_hash_mismatch_atomic_witness :
    ((∃ l1, (Language.mk "en" "h1" ["a"]).addStrings ⟨"en", "h2", ["b"]⟩ =
        some (l1, some errVersionHash)) ↔ ("h2" : GoString) ≠ "h1") ∧
    (∀ l1, (Language.mk "en" "h1" ["a"]).addStrings ⟨"en", "h2", ["b"]⟩ =
        some (l1, some errVersionHash) →
        l1.name = "en" ∧ l1.versionHash = "h1" ∧ l1.strings = ["a"]) :=
  addStrings_version_hash_mismatch_atomic ⟨"en", "h1", ["a"]⟩ ⟨"en", "h2", ["b"]⟩
    (by decide) (by decide)

theorem Language.String_eq (l : Language) (id : Nat) :
    l.String id = some (if h : id < l.strings.length then l.strings[id] else "") := by
  unfold Language.String loadAt
  by_cases h : id < l.strings.length
  · simp [h]
  · simp [h]

/-- C3. Lookup is total: `String(id)` returns (no index-out-of-range panic) for every `id`,
the stored string at position `id` when `id` is below the length of the sequence and the
empty string otherwise. -/
theorem String_total (l : Language) (id : Nat) :
    l.String id = some (if h : id < l.strings.length then l.strings[id] else "") := by
  by_cases h : id < l.strings.length
  · simp [Language.String, loadAt, h]
  · simp [Language.String, loadAt, h]

/-- The language that `Domain.LoadStrings` creates on the first load of a tag, after
loading one table into it. -/
theorem addStrings_fresh (lang h : GoString) (strs : List GoString) :
    ∃ strings, (Language.mk lang "" []).addStrings ⟨lang, h, strs⟩ =
        some (⟨lang, h, strings⟩, none) ∧
      strings.length = strs.length + 1 ∧
      ∀ j, strings[j]? =
        if (strs.getD j "") ≠ "" then some (strs.getD j "")
        else (List.replicate (strs.length + 1) "")[j]? := by
  obtain ⟨strings, h1, h2, h3⟩ :=
    addStrings_accept (Language.mk lang "" []) ⟨lang, h, strs⟩ rfl (Or.inl rfl)
  refine ⟨strings, h1, by simpa using h2, ?_⟩
  intro j
  rw [h3 j]
  simp

/-- C10. Incoming non-empty slots win: after an accepted call of `addStrings`, `String(i)`
is the incoming string at every position `i` of the table that holds a non-empty string;
and loading `["x","",""]` and then `["","y",""]` into a new language gives
`String(0) = "x"`, `String(1) = "y"`, `String(2) = ""`. -/
theorem addStrings_incoming_nonempty_wins :
    (∀ (l : Language) (sd : PackedStringsData) (l1 : Language),
        l.addStrings sd = some (l1, none) →
        ∀ (i : Nat) (hi : i < sd.Strings.length), sd.Strings[i] ≠ "" →
          l1.String i = some sd.Strings[i]) ∧
    (∀ lang h : GoString, ∃ l1 l2 : Language,
        (Language.mk lang "" []).addStrings ⟨lang, h, ["x", "", ""]⟩ = some (l1, none) ∧
        l1.addStrings ⟨lang, h, ["", "y", ""]⟩ = some (l2, none) ∧
        l2.String 0 = some "x" ∧ l2.String 1 = some "y" ∧ l2.String 2 = some "") := by
  constructor
  · intro l sd l1 hacc i hi hne
    rcases addStrings_cases l sd with ⟨h, _⟩ | ⟨h, _⟩ | ⟨_, hl, hv⟩
    · rw [h] at hacc; cases hacc
    · rw [h] at hacc; cases hacc
    · obtain ⟨strings, h1, h2, h3⟩ := addStrings_accept l sd hl hv
      rw [h1] at hacc
      cases hacc
      have hlt : i < strings.length := by rw [h2]; omega
      have hget : strings[i]? = some sd.Strings[i] := by
        rw [h3 i, List.getD_eq_getElem _ _ hi, if_pos hne]
      rw [Language.String_eq]
      simp only [hlt, dite_true]
      rw [List.getElem?_eq_getElem hlt] at hget
      exact hget
  · intro lang h
    refine ⟨⟨lang, h, ["x", "", "", ""]⟩, ⟨lang, h, ["x", "y", "", ""]⟩, ?_, ?_, ?_, ?_, ?_⟩
    · simp [Language.addStrings, Language.ensureStringsLen, Language.addLoop, storeAt,
        List.replicate]
    · simp [Language.addStrings, Language.ensureStringsLen, Language.addLoop, storeAt]
    · simp [Language.String, loadAt]
    · simp [Language.String, loadAt]
    · simp [Language.String, loadAt]

/-- Witness of C10: the second load of the example, read at the slot it fills. -/
theorem addStrings_incoming_nonempty_wins_witness :
    (Language.mk "en" "h" ["x", "", "", ""]).addStrings ⟨"en", "h", ["", "y", ""]⟩ =
        some (⟨"en", "h", ["x", "y", "", ""]⟩, none) ∧
      (Language.mk "en" "h" ["x", "y", "", ""]).String 1 = some "y" :=
  ⟨by decide,
   addStrings_incoming_nonempty_wins.1 ⟨"en", "h", ["x", "", "", ""]⟩ ⟨"en", "h", ["", "y", ""]⟩
     ⟨"en", "h", ["x", "y", "", ""]⟩ (by decide) 1 (by decide) (by decide)⟩

/-- C1 (the code at the failing input). Loading `["a","b"]` into a new language and then the
longer table `["","",""]`, both accepted, leaves `String(0)` and `String(1)` empty: the
growth step of `ensureStringsLen` installs a fresh all-empty slice, and the empty incoming
slots do not restore what was there. -/
theorem addStrings_growth_erases :
    ∃ l1 l2 : Language,
      (Language.mk "en" "" []).addStrings ⟨"en", "h", ["a", "b"]⟩ = some (l1, none) ∧
      l1.String 0 = some "a" ∧ l1.String 1 = some "b" ∧
      l1.addStrings ⟨"en", "h", ["", "", ""]⟩ = some (l2, none) ∧
      l2.String 0 = some "" ∧ l2.String 1 = some "" :=
  ⟨⟨"en", "h", ["a", "b", ""]⟩, ⟨"en", "h", ["", "", "", ""]⟩,
    by decide, by decide, by decide, by decide, by decide, by decide⟩

/-! ## String packer (cmd/trpack/main.go) -/

theorem foldl_max_ge (names : List (GoString × Nat)) :
    ∀ init : Nat,
      init ≤ names.foldl (fun max kv => if kv.2 > max then kv.2 else max) init ∧
      ∀ kv ∈ names, kv.2 ≤ names.foldl (fun max kv => if kv.2 > max then kv.2 else max) init := by
  induction names with
  | nil => intro init; simp
  | cons a rest ih =>
    intro init
    simp only [List.foldl_cons, List.mem_cons, forall_eq_or_imp]
    obtain ⟨h1, h2⟩ := ih (if a.2 > init then a.2 else init)
    refine ⟨?_, ?_, h2⟩
    · by_cases hc : a.2 > init
      · rw [if_pos hc] at h1 ⊢; omega
      · rw [if_neg hc] at h1 ⊢; omega
    · by_cases hc : a.2 > init
      · rw [if_pos hc] at h1 ⊢; omega
      · rw [if_neg hc] at h1 ⊢; omega

theorem mapGet_mem {α : Type} (m : List (GoString × α)) (k : GoString) (v : α)
    (h : mapGet m k = some v) : (k, v) ∈ m := by
  induction m with
  | nil => simp [mapGet] at h
  | cons a rest ih =>
    obtain ⟨k1, v1⟩ := a
    unfold mapGet at h
    by_cases hk : k = k1
    · rw [if_pos hk] at h
      cases h
      simp [hk]
    · rw [if_neg hk] at h
      exact List.mem_cons_of_mem _ (ih h)

/-- Every identifier of the set is at most `MaxID()`. -/
theorem MaxID_ge (r : ResourceIDSet) (name : GoString) (id : Nat)
    (h : mapGet r.Names name = some id) : id ≤ r.MaxID :=
  (foldl_max_ge r.Names 0).2 (name, id) (mapGet_mem _ _ _ h)

/-- With every identifier in range the loop of `packFile` does not panic: it ends `.ok` when
every visited name has an identifier, and otherwise returns the error naming a visited
name that has none. -/
theorem packLoop_total (ids : ResourceIDSet) (rest : List (GoString × GoString)) :
    ∀ strings : List GoString,
      (∀ kv ∈ rest, ∀ id, mapGet ids.Names kv.1 = some id → id < strings.length) →
      ((∃ r, packLoop ids strings rest = some (.ok r)) ∧
          ∀ kv ∈ rest, mapGet ids.Names kv.1 ≠ none) ∨
      (∃ kv ∈ rest, mapGet ids.Names kv.1 = none ∧
          packLoop ids strings rest = some (.error (errNoResourceID kv.1))) := by
  induction rest with
  | nil => intro strings _; left; exact ⟨⟨strings, rfl⟩, by simp⟩
  | cons a rest ih =>
    intro strings hb
    obtain ⟨name, value⟩ := a
    cases hget : mapGet ids.Names name with
    | none =>
      right
      exact ⟨(name, value), List.mem_cons_self _ _, hget, by simp [packLoop, hget]⟩
    | some id =>
      have hid : id < strings.length := hb (name, value) (List.mem_cons_self _ _) id hget
      have hb1 : ∀ kv ∈ rest, ∀ id1, mapGet ids.Names kv.1 = some id1 →
          id1 < (strings.set id value).length := by
        intro kv hkv id1 h1
        simpa using hb kv (List.mem_cons_of_mem _ hkv) id1 h1
      have hstep : packLoop ids strings ((name, value) :: rest) =
          packLoop ids (strings.set id value) rest := by
        simp [packLoop, hget, storeAt_eq_some value hid]
      rw [hstep]
      rcases ih (strings.set id value) hb1 with ⟨hr, hall⟩ | ⟨kv, hkv, hn, he⟩
      · left
        refine ⟨hr, ?_⟩
        intro kv hkv
        rcases List.mem_cons.1 hkv with h | h
        · subst h; simp [hget]
        · exact hall kv h
      · right
        exact ⟨kv, List.mem_cons_of_mem _ hkv, hn, he⟩

/-- The slice a loop of `packFile` ends with, when the visited names are distinct and no two
of them share an identifier: the value of each visited name stands at its identifier, and
every slot that is no visited name's identifier is untouched. -/
theorem packLoop_ok_spec (ids : ResourceIDSet) (rest : List (GoString × GoString)) :
    ∀ (strings r : List GoString), packLoop ids strings rest = some (.ok r) →
      (rest.map Prod.fst).Nodup →
      (∀ kv1 ∈ rest, ∀ kv2 ∈ rest, ∀ id, mapGet ids.Names kv1.1 = some id →
          mapGet ids.Names kv2.1 = some id → kv1.1 = kv2.1) →
      r.length = strings.length ∧
      (∀ kv ∈ rest, ∀ id, mapGet ids.Names kv.1 = some id → r[id]? = some kv.2) ∧
      (∀ j, (∀ kv ∈ rest, mapGet ids.Names kv.1 ≠ some j) → r[j]? = strings[j]?) := by
  induction rest with
  | nil =>
    intro strings r h _ _
    simp only [packLoop, Option.some.injEq, Except.ok.injEq] at h
    subst h
    simp
  | cons a rest ih =>
    intro strings r h hnd hinj
    obtain ⟨name, value⟩ := a
    cases hget : mapGet ids.Names name with
    | none => simp [packLoop, hget] at h
    | some id =>
      by_cases hid : id < strings.length
      · have hstep : packLoop ids strings ((name, value) :: rest) =
            packLoop ids (strings.set id value) rest := by
          simp [packLoop, hget, storeAt_eq_some value hid]
        rw [hstep] at h
        simp only [List.map_cons, List.nodup_cons] at hnd
        obtain ⟨hlen, hval, hkeep⟩ := ih (strings.set id value) r h hnd.2
          (fun kv1 h1 kv2 h2 => hinj kv1 (List.mem_cons_of_mem _ h1) kv2
            (List.mem_cons_of_mem _ h2))
        refine ⟨by simpa using hlen, ?_, ?_⟩
        · intro kv hkv id1 h1
          rcases List.mem_cons.1 hkv with e | hmem
          · subst e
            simp only at h1
            rw [hget] at h1
            cases h1
            rw [hkeep id, List.getElem?_set]
            · simp [hid]
            · intro kv2 hkv2 h2
              have := hinj (name, value) (List.mem_cons_self _ _) kv2
                (List.mem_cons_of_mem _ hkv2) id hget h2
              exact hnd.1 (List.mem_map.2 ⟨kv2, hkv2, this.symm⟩)
          · exact hval kv hmem id1 h1
        · intro j hj
          rw [hkeep j (fun kv hkv => hj kv (List.mem_cons_of_mem _ hkv)), List.getElem?_set]
          have hne : id ≠ j := by
            intro e
            subst e
            exact hj (name, value) (List.mem_cons_self _ _) hget
          simp [hne]
      · simp [packLoop, hget, storeAt, hid] at h

/-- When `MaxID()+1` is a length that `make` allocates, `packFile` runs its loop on a slice
of `MaxID()+1` empty strings, in which every identifier of the set is a valid index. -/
theorem packFile_alloc (maxLen : Nat) (lang : StringsData) (ids : ResourceIDSet)
    (hmax : maxLen < 2 ^ 64) (halloc : ids.MaxID + 1 ≤ maxLen) :
    packFile maxLen lang ids =
      (match packLoop ids (List.replicate (ids.MaxID + 1) "") lang.Strings with
       | none => none
       | some (.error e) => some (.error e)
       | some (.ok strings1) =>
         some (.ok { Lang := lang.Lang, VersionHash := ids.VersionHash, Strings := strings1 })) ∧
    ∀ kv ∈ lang.Strings, ∀ id, mapGet ids.Names kv.1 = some id →
      id < (List.replicate (ids.MaxID + 1) ("" : GoString)).length := by
  constructor
  · have hmod : (ids.MaxID + 1) % 2 ^ 64 = ids.MaxID + 1 := Nat.mod_eq_of_lt (by omega)
    unfold packFile makeStrings
    rw [hmod, if_pos halloc]
  · intro kv _ id h
    have := MaxID_ge ids kv.1 id h
    simp only [List.length_replicate]
    omega

/-- C4 (amended). Pack postcondition: when `MaxID()+1` is a length that `make` allocates
(at most `maxLen`, itself below `2^64`), the names of the document (the keys of a Go map,
hence distinct) all occur in `ids.Names` and no two of them share an identifier, then
`packFile` builds a table with the document's language tag, the fingerprint of `ids` and
`MaxID()+1` strings, in which the slot of every translated name holds its translation and
every slot that is no translated name's identifier is the empty string. -/
theorem packFile_postcondition (maxLen : Nat) (lang : StringsData) (ids : ResourceIDSet)
    (hmax : maxLen < 2 ^ 64) (halloc : ids.MaxID + 1 ≤ maxLen)
    (hkeys : (lang.Strings.map Prod.fst).Nodup)
    (hall : ∀ kv ∈ lang.Strings, mapGet ids.Names kv.1 ≠ none)
    (hinj : ∀ kv1 ∈ lang.Strings, ∀ kv2 ∈ lang.Strings, ∀ id,
      mapGet ids.Names kv1.1 = some id → mapGet ids.Names kv2.1 = some id → kv1.1 = kv2.1) :
    ∃ pak, packFile maxLen lang ids = some (.ok pak) ∧
      pak.Lang = lang.Lang ∧ pak.VersionHash = ids.VersionHash ∧
      pak.Strings.length = ids.MaxID + 1 ∧
      (∀ kv ∈ lang.Strings, ∀ id, mapGet ids.Names kv.1 = some id →
        pak.Strings[id]? = some kv.2) ∧
      (∀ j, j < ids.MaxID + 1 → (∀ kv ∈ lang.Strings, mapGet ids.Names kv.1 ≠ some j) →
        pak.Strings[j]? = some "") := by
  obtain ⟨hpack, hb⟩ := packFile_alloc maxLen lang ids hmax halloc
  rcases packLoop_total ids lang.Strings _ hb with ⟨⟨r, hr⟩, _⟩ | ⟨kv, hkv, hn, _⟩
  · obtain ⟨hlen, hval, hkeep⟩ := packLoop_ok_spec ids lang.Strings _ r hr hkeys hinj
    refine ⟨⟨lang.Lang, ids.VersionHash, r⟩, ?_, rfl, rfl, by simpa using hlen, hval, ?_⟩
    · rw [hpack, hr]
    · intro j hj hfree
      show r[j]? = some ""
      rw [hkeep j hfree]
      simp [hj]
  · exact absurd hn (hall kv hkv)

/-- Witness of C4: the round-trip example of the specification, packing `A` and `C` against
the identifiers `A=0, B=1, C=2`. -/
theorem packFile_postcondition_witness :
    ∃ pak, packFile (2 ^ 63 - 1) ⟨"en", [("A", "x"), ("C", "z")]⟩
        ⟨"h", [("A", 0), ("B", 1), ("C", 2)]⟩ = some (.ok pak) ∧
      pak.Lang = "en" ∧ pak.VersionHash = "h" ∧
      pak.Strings.length = (ResourceIDSet.mk "h" [("A", 0), ("B", 1), ("C", 2)]).MaxID + 1 ∧
      (∀ kv ∈ [(("A" : GoString), ("x" : GoString)), ("C", "z")], ∀ id,
        mapGet [(("A" : GoString), 0), ("B", 1), ("C", 2)] kv.1 = some id →
        pak.Strings[id]? = some kv.2) ∧
      (∀ j, j < (ResourceIDSet.mk "h" [("A", 0), ("B", 1), ("C", 2)]).MaxID + 1 →
        (∀ kv ∈ [(("A" : GoString), ("x" : GoString)), ("C", "z")],
          mapGet [(("A" : GoString), 0), ("B", 1), ("C", 2)] kv.1 ≠ some j) →
        pak.Strings[j]? = some "") :=
  packFile_postcondition (2 ^ 63 - 1) ⟨"en", [("A", "x"), ("C", "z")]⟩
    ⟨"h", [("A", 0), ("B", 1), ("C", 2)]⟩ (by decide) (by decide) (by decide) (by decide)
    (by decide)

/-- C4 (counterexample). With the identifier `2^64-1` the length `MaxID()+1` wraps to `0`:
the one name of the document has an identifier, and `packFile` panics on the store instead
of building a table. -/
theorem packFile_postcondition_fails_at_max_uint64 :
    mapGet (ResourceIDSet.mk "h" [("A", 2 ^ 64 - 1)]).Names "A" = some (2 ^ 64 - 1) ∧
    packFile (2 ^ 63 - 1) ⟨"en", [("A", "x")]⟩ ⟨"h", [("A", 2 ^ 64 - 1)]⟩ = none := by
  decide

/-- C5 (amended). Referential integrity of packing: when `MaxID()+1` is a length that `make`
allocates, `packFile` returns (no panic); it returns an error exactly when some name of
the document is absent from `ids.Names`, the error then names a key of the document that
has no identifier, and it reaches `writeJSON` with a table exactly when no name is absent. -/
theorem packFile_referential_integrity (maxLen : Nat) (lang : StringsData)
    (ids : ResourceIDSet) (hmax : maxLen < 2 ^ 64) (halloc : ids.MaxID + 1 ≤ maxLen) :
    (∃ res, packFile maxLen lang ids = some res) ∧
    ((∃ e, packFile maxLen lang ids = some (.error e)) ↔
      ∃ kv ∈ lang.Strings, mapGet ids.Names kv.1 = none) ∧
    (∀ e, packFile maxLen lang ids = some (.error e) →
      ∃ kv ∈ lang.Strings, mapGet ids.Names kv.1 = none ∧ e = errNoResourceID kv.1) ∧
    ((∃ pak, packFile maxLen lang ids = some (.ok pak)) ↔
      ∀ kv ∈ lang.Strings, mapGet ids.Names kv.1 ≠ none) := by
  obtain ⟨hpack, hb⟩ := packFile_alloc maxLen lang ids hmax halloc
  rcases packLoop_total ids lang.Strings _ hb with ⟨⟨r, hr⟩, hall⟩ | ⟨kv, hkv, hn, he⟩
  · have hres : packFile maxLen lang ids =
        some (.ok ⟨lang.Lang, ids.VersionHash, r⟩) := by rw [hpack, hr]
    refine ⟨⟨_, hres⟩, ⟨?_, ?_⟩, ?_, ⟨fun _ => hall, fun _ => ⟨_, hres⟩⟩⟩
    · rintro ⟨e, h⟩
      rw [hres] at h
      cases h
    · rintro ⟨kv, hkv, hn⟩
      exact absurd hn (hall kv hkv)
    · intro e h
      rw [hres] at h
      cases h
  · have hres : packFile maxLen lang ids = some (.error (errNoResourceID kv.1)) := by
      rw [hpack, he]
    refine ⟨⟨_, hres⟩, ⟨fun _ => ⟨kv, hkv, hn⟩, fun _ => ⟨_, hres⟩⟩, ?_, ⟨?_, ?_⟩⟩
    · intro e h
      rw [hres] at h
      cases h
      exact ⟨kv, hkv, hn, rfl⟩
    · rintro ⟨pak, h⟩
      rw [hres] at h
      cases h
    · intro hall
      exact absurd hn (hall kv hkv)

/-- Witness of C5: a document with the key `D`, which has no identifier. -/
theorem packFile_referential_integrity_witness :
    packFile (2 ^ 63 - 1) ⟨"en", [("A", "x"), ("D", "z")]⟩
        ⟨"h", [("A", 0), ("B", 1), ("C", 2)]⟩ = some (.error "no resource ID for name 'D'") ∧
    ((∃ e, packFile (2 ^ 63 - 1) ⟨"en", [("A", "x"), ("D", "z")]⟩
        ⟨"h", [("A", 0), ("B", 1), ("C", 2)]⟩ = some (.error e)) ↔
      ∃ kv ∈ [(("A" : GoString), ("x" : GoString)), ("D", "z")],
        mapGet [(("A" : GoString), 0), ("B", 1), ("C", 2)] kv.1 = none) :=
  ⟨by decide,
   (packFile_referential_integrity (2 ^ 63 - 1) ⟨"en", [("A", "x"), ("D", "z")]⟩
     ⟨"h", [("A", 0), ("B", 1), ("C", 2)]⟩ (by decide) (by decide)).2.1⟩

/-- C5 (counterexample). With an identifier `2^64-1` in the set the length `MaxID()+1` wraps
to `0` and the first store panics: a document all of whose names have identifiers yields no
table, and a document with the absent name `B`, visited after `A`, yields no error that
names `B`. -/
theorem packFile_fails_without_error_at_max_uint64 :
    (mapGet (ResourceIDSet.mk "h" [("A", 0), ("B", 2 ^ 64 - 1)]).Names "A" = some 0 ∧
      packFile (2 ^ 63 - 1) ⟨"en", [("A", "x")]⟩ ⟨"h", [("A", 0), ("B", 2 ^ 64 - 1)]⟩ = none) ∧
    (mapGet (ResourceIDSet.mk "h" [("A", 2 ^ 64 - 1)]).Names "B" = none ∧
      packFile (2 ^ 63 - 1) ⟨"en", [("A", "x"), ("B", "y")]⟩ ⟨"h", [("A", 2 ^ 64 - 1)]⟩ =
        none) := by
  decide

/-! ## Name set (cmd/trgenresid/main.go) -/

theorem utf8Encode_lt (v w : Nat) (h : v < w) (hw : w < 0x110000) (r1 r2 : List Nat) :
    List.Lex (· < ·) (utf8Encode v ++ r1) (utf8Encode w ++ r2) := by
  unfold utf8Encode
  split_ifs <;> simp only [List.cons_append, List.nil_append]
  all_goals first
    | omega
    | exact List.Lex.rel (by omega)
    | skip
  · rcases Nat.lt_or_ge (v / 64) (w / 64) with h1 | h1
    · exact List.Lex.rel (by omega)
    · have e1 : v / 64 = w / 64 := by omega
      rw [e1]
      exact List.Lex.cons (List.Lex.rel (by omega))
  · rcases Nat.lt_or_ge (v / 4096) (w / 4096) with h1 | h1
    · exact List.Lex.rel (by omega)
    · have e1 : v / 4096 = w / 4096 := by omega
      rw [e1]
      refine List.Lex.cons ?_
      rcases Nat.lt_or_ge (v / 64 % 64) (w / 64 % 64) with h2 | h2
      · exact List.Lex.rel (by omega)
      · have e2 : v / 64 % 64 = w / 64 % 64 := by omega
        rw [e2]
        exact List.Lex.cons (List.Lex.rel (by omega))
  · rcases Nat.lt_or_ge (v / 262144) (w / 262144) with h1 | h1
    · exact List.Lex.rel (by omega)
    · have e1 : v / 262144 = w / 262144 := by omega
      rw [e1]
      refine List.Lex.cons ?_
      rcases Nat.lt_or_ge (v / 4096 % 64) (w / 4096 % 64) with h2 | h2
      · exact List.Lex.rel (by omega)
      · have e2 : v / 4096 % 64 = w / 4096 % 64 := by omega
        rw [e2]
        refine List.Lex.cons ?_
        rcases Nat.lt_or_ge (v / 64 % 64) (w / 64 % 64) with h3 | h3
        · exact List.Lex.rel (by omega)
        · have e3 : v / 64 % 64 = w / 64 % 64 := by omega
          rw [e3]
          exact List.Lex.cons (List.Lex.rel (by omega))

theorem utf8Encode_ne_nil (v : Nat) : ∃ b bs, utf8Encode v = b :: bs := by
  unfold utf8Encode
  split_ifs <;> exact ⟨_, _, rfl⟩

theorem Char.toNat_lt_of_lt {a b : Char} (h : a < b) : a.val.toNat < b.val.toNat := h

theorem Char.toNat_valid (c : Char) : c.val.toNat < 0x110000 := by
  have := c.valid
  unfold UInt32.isValidChar Nat.isValidChar at this
  omega

/-- UTF-8 keeps the order: the lexicographic order of the scalar values of two strings is
the lexicographic order of their bytes. -/
theorem utf8_lex_of_lt (l1 l2 : List Char) (h : l1 < l2) :
    l1.flatMap (fun c => utf8Encode c.val.toNat) < l2.flatMap (fun c => utf8Encode c.val.toNat) := by
  induction h with
  | nil =>
    rename_i a l
    obtain ⟨b, bs, e⟩ := utf8Encode_ne_nil a.val.toNat
    simp only [List.flatMap_nil, List.flatMap_cons, e, List.cons_append]
    exact List.Lex.nil
  | cons _ ih =>
    simp only [List.flatMap_cons]
    exact List.Lex.append_left _ ih _
  | rel hab =>
    simp only [List.flatMap_cons]
    exact utf8Encode_lt _ _ (Char.toNat_lt_of_lt hab) (Char.toNat_valid _) _ _

theorem utf8Bytes_lt_iff (a b : GoString) : utf8Bytes a < utf8Bytes b ↔ a.data < b.data := by
  constructor
  · intro h
    by_contra hn
    rcases (not_lt.1 hn).lt_or_eq with h1 | h1
    · exact lt_asymm h (utf8_lex_of_lt _ _ h1)
    · unfold utf8Bytes at h
      rw [h1] at h
      exact lt_irrefl _ h
  · exact utf8_lex_of_lt _ _

theorem utf8Bytes_le_iff (a b : GoString) : utf8Bytes a ≤ utf8Bytes b ↔ a.data ≤ b.data := by
  rw [← not_lt, ← not_lt, utf8Bytes_lt_iff]

/-- The bytes of the example string `aé€😀`, one scalar value of each encoded length. -/
theorem utf8Bytes_example :
    utf8Bytes "aé€😀" = [0x61, 0xC3, 0xA9, 0xE2, 0x82, 0xAC, 0xF0, 0x9F, 0x98, 0x80] := by
  decide

instance strLE_isTotal : IsTotal GoString strLE :=
  ⟨fun a b => le_total (utf8Bytes a) (utf8Bytes b)⟩

instance strLE_isTrans : IsTrans GoString strLE :=
  ⟨fun _ _ _ h1 h2 => le_trans h1 h2⟩

instance strLE_isAntisymm : IsAntisymm GoString strLE :=
  ⟨fun a b h1 h2 =>
    String.ext (le_antisymm ((utf8Bytes_le_iff a b).1 h1) ((utf8Bytes_le_iff b a).1 h2))⟩

theorem sortStrings_sorted (xs : List GoString) : (sortStrings xs).Sorted strLE :=
  List.sorted_insertionSort strLE xs

theorem sortStrings_perm (xs : List GoString) : (sortStrings xs).Perm xs :=
  List.perm_insertionSort strLE xs

/-- The result of `sort.Strings` is determined by its input: it is the one increasing
rearrangement. -/
theorem sortStrings_unique (xs ys : List GoString) (hp : ys.Perm xs) (hs : ys.Sorted strLE) :
    ys = sortStrings xs :=
  List.eq_of_perm_of_sorted (hp.trans (sortStrings_perm xs).symm) hs (sortStrings_sorted xs)

theorem sorted_strLT_of_nodup {xs : List GoString} (hs : xs.Sorted strLE) (hn : xs.Nodup) :
    xs.Sorted strLT := by
  unfold List.Sorted at hs ⊢
  unfold List.Nodup at hn
  refine (hs.and hn).imp ?_
  rintro a b ⟨hle, hne⟩
  exact (utf8Bytes_lt_iff a b).2
    (lt_of_le_of_ne ((utf8Bytes_le_iff a b).1 hle) (fun e => hne (String.ext e)))

theorem strLT_irrefl (a : GoString) : ¬ strLT a a := lt_irrefl (utf8Bytes a)

theorem mapGet_mapSet {α : Type} (m : List (GoString × α)) (k x : GoString) (v : α) :
    mapGet (mapSet m k v) x = if x = k then some v else mapGet m x := by
  induction m with
  | nil => simp [mapSet, mapGet]
  | cons a rest ih =>
    obtain ⟨k1, v1⟩ := a
    unfold mapSet
    by_cases hk : k = k1
    · subst hk
      by_cases hx : x = k
      · simp [mapGet, hx]
      · simp [mapGet, hx]
    · rw [if_neg hk]
      by_cases hx : x = k1
      · subst hx
        have : ¬ x = k := fun e => hk e.symm
        simp [mapGet, this]
      · simp only [mapGet, hx, if_false, ih]

theorem NameSet.WF_empty : NameSet.empty.WF :=
  ⟨List.nodup_nil, by intro x; simp [NameSet.empty, mapGet], fun _ => rfl⟩

theorem NameSet.Add_names (ns : NameSet) (hw : ns.WF) (name : GoString) :
    (ns.Add name).WF ∧ ∀ x, x ∈ (ns.Add name).names ↔ x ∈ ns.names ∨ x = name := by
  unfold NameSet.Add
  cases hget : mapGet ns.set name with
  | some b =>
    have hmem : name ∈ ns.names := (hw.keys name).1 (by simp [hget])
    refine ⟨hw, fun x => ⟨Or.inl, ?_⟩⟩
    rintro (h | h)
    · exact h
    · exact h ▸ hmem
  | none =>
    have hnot : name ∉ ns.names := fun h => (hw.keys name).2 h hget
    refine ⟨⟨?_, ?_, ?_⟩, ?_⟩
    · simpa [List.nodup_append] using ⟨hw.nodup, hnot⟩
    · intro x
      simp only [mapGet_mapSet, List.mem_append, List.mem_singleton]
      by_cases hx : x = name
      · simp [hx]
      · simp [hx, hw.keys x]
    · intro h; cases h
    · intro x; simp

theorem NameSet.Names_spec (ns : NameSet) (hw : ns.WF) :
    ns.Names.2.WF ∧ ns.Names.1 = ns.Names.2.names ∧ ns.Names.1.Sorted strLT ∧
      ∀ x, x ∈ ns.Names.1 ↔ x ∈ ns.names := by
  cases hs : ns.needSort with
  | false =>
    have hN : ns.Names = (ns.names, ns) := by simp [NameSet.Names, hs]
    have he : ns.names = [] := hw.fresh hs
    rw [hN]
    exact ⟨hw, rfl, by rw [he]; exact List.sorted_nil, fun _ => Iff.rfl⟩
  | true =>
    have hN : ns.Names =
        (sortStrings ns.names, { ns with names := sortStrings ns.names }) := by
      simp [NameSet.Names, hs]
    rw [hN]
    have hp := sortStrings_perm ns.names
    have hnd : (sortStrings ns.names).Nodup := hp.nodup_iff.2 hw.nodup
    refine ⟨⟨hnd, ?_, ?_⟩, rfl, sorted_strLT_of_nodup (sortStrings_sorted _) hnd,
      fun x => hp.mem_iff⟩
    · intro x
      rw [hw.keys x]
      exact hp.mem_iff.symm
    · intro h
      simp only [hs] at h
      cases h

theorem NameSet.run_spec (calls : List NameSetCall) :
    ∀ ns : NameSet, ns.WF →
      (ns.run calls).WF ∧ ∀ x, x ∈ (ns.run calls).names ↔ x ∈ ns.names ∨ x ∈ addedNames calls := by
  induction calls with
  | nil => intro ns hw; exact ⟨hw, by simp [NameSet.run, addedNames]⟩
  | cons c calls ih =>
    intro ns hw
    cases c with
    | add name =>
      obtain ⟨hw1, hm1⟩ := NameSet.Add_names ns hw name
      obtain ⟨hw2, hm2⟩ := ih (ns.Add name) hw1
      refine ⟨hw2, fun x => ?_⟩
      show x ∈ ((ns.Add name).run calls).names ↔ _
      rw [hm2 x, hm1 x]
      simp only [addedNames, List.mem_cons]
      tauto
    | names =>
      obtain ⟨hw1, he, _, hm1⟩ := NameSet.Names_spec ns hw
      obtain ⟨hw2, hm2⟩ := ih ns.Names.2 hw1
      refine ⟨hw2, fun x => ?_⟩
      show x ∈ (ns.Names.2.run calls).names ↔ _
      rw [hm2 x, ← he, hm1 x]
      simp only [addedNames]

theorem NameSet.ofAdds_eq_run (xs : List GoString) :
    NameSet.ofAdds xs = NameSet.empty.run (xs.map NameSetCall.add) ∧
      addedNames (xs.map NameSetCall.add) = xs := by
  have h : ∀ (ns : NameSet), xs.foldl NameSet.Add ns = ns.run (xs.map NameSetCall.add) := by
    induction xs with
    | nil => intro ns; rfl
    | cons a rest ih => intro ns; exact ih (ns.Add a)
  refine ⟨h _, ?_⟩
  clear h
  induction xs with
  | nil => rfl
  | cons a rest ih => simp [addedNames, ih]

/-- What `Names()` returns after any sequence of calls on the empty set. -/
theorem NameSet.run_Names (calls : List NameSetCall) :
    (NameSet.empty.run calls).Names.1.Sorted strLT ∧
      ∀ x, x ∈ (NameSet.empty.run calls).Names.1 ↔ x ∈ addedNames calls := by
  obtain ⟨hw, hm⟩ := NameSet.run_spec calls NameSet.empty NameSet.WF_empty
  obtain ⟨_, _, hs, hm2⟩ := NameSet.Names_spec _ hw
  refine ⟨hs, fun x => ?_⟩
  rw [hm2 x, hm x]
  simp [NameSet.empty]

theorem sorted_strLT_nodup (l : List GoString) (hl : l.Sorted strLT) : l.Nodup := by
  unfold List.Sorted at hl
  refine hl.imp ?_
  intro a b hab e
  subst e
  exact strLT_irrefl a hab

/-- What `Names()` returns after a sequence of `Add` calls on the empty set. -/
theorem NameSet.ofAdds_Names (xs : List GoString) :
    (NameSet.ofAdds xs).Names.1.Sorted strLT ∧ (NameSet.ofAdds xs).Names.1.Nodup ∧
      ∀ x, x ∈ (NameSet.ofAdds xs).Names.1 ↔ x ∈ xs := by
  obtain ⟨he, ha⟩ := NameSet.ofAdds_eq_run xs
  obtain ⟨hs, hm⟩ := NameSet.run_Names (xs.map NameSetCall.add)
  rw [he]
  refine ⟨hs, sorted_strLT_nodup _ hs, fun x => ?_⟩
  rw [hm x, ha]

/-- C7. After every sequence of `Add` calls on an empty `NameSet`, `Names()` returns a
sequence that is strictly increasing in the order of Go strings, hence without duplicates,
and whose elements are exactly the names that were added; the same holds after every
sequence that interleaves `Add` and `Names()` calls. -/
theorem Names_strictly_increasing_exact :
    (∀ xs : List GoString,
      (NameSet.ofAdds xs).Names.1.Sorted strLT ∧ (NameSet.ofAdds xs).Names.1.Nodup ∧
        ∀ x, x ∈ (NameSet.ofAdds xs).Names.1 ↔ x ∈ xs) ∧
    (∀ calls : List NameSetCall,
      (NameSet.empty.run calls).Names.1.Sorted strLT ∧
        (NameSet.empty.run calls).Names.1.Nodup ∧
        ∀ x, x ∈ (NameSet.empty.run calls).Names.1 ↔ x ∈ addedNames calls) := by
  constructor
  · exact NameSet.ofAdds_Names
  · intro calls
    obtain ⟨hs, hm⟩ := NameSet.run_Names calls
    exact ⟨hs, sorted_strLT_nodup _ hs, hm⟩

/-- The result of `Names()` is the same after two sequences of `Add` calls that add the same names. -/
theorem NameSet.ofAdds_Names_congr (xs ys : List GoString) (h : ∀ x, x ∈ xs ↔ x ∈ ys) :
    (NameSet.ofAdds xs).Names.1 = (NameSet.ofAdds ys).Names.1 := by
  obtain ⟨hx, hxn, hxm⟩ := NameSet.ofAdds_Names xs
  obtain ⟨hy, hyn, hym⟩ := NameSet.ofAdds_Names ys
  have hperm : (NameSet.ofAdds xs).Names.1.Perm (NameSet.ofAdds ys).Names.1 :=
    (List.perm_ext_iff_of_nodup hxn hyn).2 (fun x => by rw [hxm x, hym x, h x])
  have hle : ∀ l : List GoString, l.Sorted strLT → l.Sorted strLE := by
    intro l hl
    unfold List.Sorted at hl ⊢
    exact hl.imp (fun hab => le_of_lt hab)
  exact List.eq_of_perm_of_sorted hperm (hle _ hx) (hle _ hy)

/-- C6. `Names()` and `Hash()` depend only on the set of names added: two sequences of `Add`
calls on empty sets that add the same names, in any order and with any repetitions, give
the same `Names()` sequence and, whatever the digest function, the same `Hash()`. -/
theorem Names_Hash_depend_on_set (sha1hex : GoString → GoString) (xs ys : List GoString)
    (h : ∀ x, x ∈ xs ↔ x ∈ ys) :
    (NameSet.ofAdds xs).Names.1 = (NameSet.ofAdds ys).Names.1 ∧
      ((NameSet.ofAdds xs).Hash sha1hex).1 = ((NameSet.ofAdds ys).Hash sha1hex).1 := by
  have heq := NameSet.ofAdds_Names_congr xs ys h
  refine ⟨heq, ?_⟩
  unfold NameSet.Hash
  rw [heq]

/-- Witness of C6: adding `A` twice gives the same names and hash as adding it once; the
digest function is taken to be the identity, which shows the digested string. -/
theorem Names_Hash_depend_on_set_witness :
    (NameSet.ofAdds ["A", "A"]).Names.1 = (NameSet.ofAdds ["A"]).Names.1 ∧
      ((NameSet.ofAdds ["A", "A"]).Hash id).1 = ((NameSet.ofAdds ["A"]).Hash id).1 :=
  Names_Hash_depend_on_set id ["A", "A"] ["A"] (by intro x; simp)

/-! ## Generator and extractor (cmd/trgenresid/main.go, cmd/trpack/ids.go) -/

theorem bindSpecs_resourceSpecs_succ (last : ValueSpec)
    (ht : last.Typ = some (.ident "uint")) (hv : last.Values = [.iota])
    (names : List GoString) :
    ∀ i, 0 < i →
      bindSpecs (some last) i (resourceSpecs i names) = .ok (resourceBindings i names) := by
  induction names with
  | nil => intro i _; rfl
  | cons name rest ih =>
    intro i hi
    have hne : i ≠ 0 := by omega
    simp only [resourceSpecs, hne, if_false, bindSpecs, resourceBindings]
    simp [ht, hv, ih (i + 1) (by omega)]

theorem bindSpecs_resourceSpecs (names : List GoString) :
    bindSpecs none 0 (resourceSpecs 0 names) = .ok (resourceBindings 0 names) := by
  cases names with
  | nil => rfl
  | cons name rest =>
    simp only [resourceSpecs, if_true, bindSpecs, resourceBindings]
    simp [bindSpecs_resourceSpecs_succ
      { Names := [name], Typ := some (.ident "uint"), Values := [.iota] } rfl rfl rest 1
      (by omega)]

theorem resourceBindings_spec (names : List GoString) :
    ∀ i, (resourceBindings i names).map (fun b => b.name) = names ∧
      (resourceBindings i names).map (fun b => (b.name, b.value)) =
        (numbered i names).map (fun p => (p.1, Value.int p.2)) ∧
      ∀ b ∈ resourceBindings i names, b.typ = some (.ident "uint") ∧ b.init = .iota ∧
        i ≤ b.iota ∧ b.iota < i + names.length := by
  induction names with
  | nil => intro i; simp [resourceBindings, numbered]
  | cons name rest ih =>
    intro i
    obtain ⟨h1, h2, h3⟩ := ih (i + 1)
    refine ⟨by simp [resourceBindings, h1], ?_, ?_⟩
    · simp only [resourceBindings, numbered, List.map_cons, h2]
      rfl
    · intro b hb
      simp only [resourceBindings, List.mem_cons] at hb
      rcases hb with e | hb
      · subst e
        simp
      · obtain ⟨a1, a2, a3, a4⟩ := h3 b hb
        refine ⟨a1, a2, by omega, ?_⟩
        simp only [List.length_cons]
        omega

theorem numbered_spec (names : List GoString) :
    ∀ i, (numbered i names).map Prod.fst = names ∧
      (numbered i names).map Prod.snd = List.range' i names.length ∧
      numbered i names = names.zip (List.range' i names.length) := by
  induction names with
  | nil => intro i; simp [numbered]
  | cons name rest ih =>
    intro i
    obtain ⟨h1, h2, h3⟩ := ih (i + 1)
    simp [numbered, h1, h2, List.range'_succ, ← h3]

theorem resourceBindings_getElem? (names : List GoString) :
    ∀ i k, (resourceBindings i names)[k]? =
      names[k]?.map (fun n => (⟨n, i + k, some (.ident "uint"), .iota⟩ : ConstBinding)) := by
  induction names with
  | nil => intro i k; simp [resourceBindings]
  | cons name rest ih =>
    intro i k
    cases k with
    | zero => simp [resourceBindings]
    | succ k =>
      simp only [resourceBindings, List.getElem?_cons_succ, ih (i + 1) k]
      have e : i + 1 + k = i + (k + 1) := by omega
      rw [e]

theorem NameSet.ofAdds_WF (xs : List GoString) : (NameSet.ofAdds xs).WF := by
  rw [(NameSet.ofAdds_eq_run xs).1]
  exact (NameSet.run_spec _ NameSet.empty NameSet.WF_empty).1

/-- A second call of `Names()` returns what the first returned. -/
theorem NameSet.Names_Names (ns : NameSet) (hw : ns.WF) : ns.Names.2.Names.1 = ns.Names.1 := by
  obtain ⟨hw1, he, hs, _⟩ := NameSet.Names_spec ns hw
  obtain ⟨_, _, hs2, hm2⟩ := NameSet.Names_spec ns.Names.2 hw1
  have hle : ∀ l : List GoString, l.Sorted strLT → l.Sorted strLE := by
    intro l hl
    unfold List.Sorted at hl ⊢
    exact hl.imp (fun hab => le_of_lt hab)
  refine List.eq_of_perm_of_sorted ?_ (hle _ hs2) (hle _ hs)
  refine (List.perm_ext_iff_of_nodup (sorted_strLT_nodup _ hs2) (sorted_strLT_nodup _ hs)).2 ?_
  intro x
  rw [hm2 x, he]

theorem intercalate_go_data (s : GoString) (as : List GoString) :
    ∀ acc : GoString, (String.intercalate.go acc s as).data =
      acc.data ++ as.flatMap (fun a => s.data ++ a.data) := by
  induction as with
  | nil => intro acc; simp [String.intercalate.go]
  | cons a rest ih =>
    intro acc
    simp only [String.intercalate.go, ih, String.data_append, List.flatMap_cons,
      List.append_assoc]

/-- A line that holds no line feed is the first of the lines of a text that continues after
a line feed. -/
theorem splitLines_line (a rest : List Char) (h : '\n' ∉ a) :
    splitLines (a ++ '\n' :: rest) = a :: splitLines rest := by
  induction a with
  | nil => simp [splitLines]
  | cons c cs ih =>
    simp only [List.mem_cons, not_or] at h
    have hc : c ≠ '\n' := fun e => h.1 e.symm
    rw [List.cons_append, splitLines, if_neg hc, ih h.2]

theorem dropLeading_append (p l : List Char) : dropLeading p (p ++ l) = some l := by
  induction p with
  | nil => cases l <;> rfl
  | cons a p ih => simp [dropLeading, ih]

theorem dropTrailing_append (s l : List Char) : dropTrailing s (l ++ s) = some l := by
  unfold dropTrailing
  rw [List.reverse_append, dropLeading_append]
  simp

/-- The characters of an identifier are letters and digits. -/
theorem isIdentifier_chars (u : UnicodeTables) (s : GoString) (h : isIdentifier u s = true) :
    ∀ c ∈ s.data, (isLetter u c || isDigit u c) = true := by
  unfold isIdentifier at h
  cases hd : s.data with
  | nil => rw [hd] at h; cases h
  | cons ch rest =>
    rw [hd] at h
    simp only [Bool.and_eq_true, List.all_eq_true] at h
    intro c hc
    rcases List.mem_cons.1 hc with e | hc
    · subst e
      simp [h.1.1]
    · exact h.1.2 c hc

/-- An ASCII character that is no letter, digit or `_` is no character of an identifier. -/
theorem not_identChar (u : UnicodeTables) (c : Char) (h1 : c.isAlpha = false)
    (h2 : (c == '_') = false) (h3 : c.isDigit = false) (h4 : decide (0x80 ≤ c.toNat) = false) :
    (isLetter u c || isDigit u c) = false := by
  unfold isLetter isDigit
  rw [h1, h2, h3, h4]
  rfl

/-- A letter or digit is none of the characters that end a name in the generated text. -/
theorem identChar_ne (u : UnicodeTables) (c : Char)
    (h : (isLetter u c || isDigit u c) = true) : c ≠ '\n' ∧ c ≠ ' ' ∧ c ≠ ')' := by
  refine ⟨?_, ?_, ?_⟩ <;>
  · intro e
    subst e
    rw [not_identChar u _ (by decide) (by decide) (by decide) (by decide)] at h
    cases h

theorem commentChar_ne (c : Char) (h : commentChar c = true) : c ≠ '\n' := by
  intro e
  subst e
  revert h
  decide

theorem literalChar_ne (c : Char) (h : literalChar c = true) : c ≠ '\n' := by
  intro e
  subst e
  revert h
  decide

/-- The characters of `strings.Join(args, " ")`. -/
theorem stringsJoin_space_chars (args : List GoString)
    (h : ∀ a ∈ args, ∀ c ∈ a.data, commentChar c = true) :
    ∀ c ∈ (stringsJoin args " ").data, commentChar c = true := by
  cases args with
  | nil => intro c hc; cases hc
  | cons a rest =>
    intro c hc
    unfold stringsJoin String.intercalate at hc
    rw [intercalate_go_data] at hc
    rcases List.mem_append.1 hc with hc | hc
    · exact h a (List.mem_cons_self _ _) c hc
    · obtain ⟨b, hb, hcb⟩ := List.mem_flatMap.1 hc
      rcases List.mem_append.1 hcb with hs | hs
      · have : c = ' ' := by simpa using hs
        subst this
        decide
      · exact h b (List.mem_cons_of_mem _ hb) c hs

/-- The block of resource identifiers is read back as the ConstSpecs of the names. -/
theorem parseSpecs_resourceLines (u : UnicodeTables) (names : List GoString) :
    ∀ i, (∀ x ∈ names, isIdentifier u x = true) →
      parseSpecs u i (splitLines ((resourceLines i names).data ++ [')', '\n'])) =
        some (resourceSpecs i names) := by
  induction names with
  | nil =>
    intro i _
    rfl
  | cons name rest ih =>
    intro i hid
    have hname := hid name (List.mem_cons_self _ _)
    have hchars := isIdentifier_chars u name hname
    have hrest := ih (i + 1) (fun x hx => hid x (List.mem_cons_of_mem _ hx))
    have hsuf : ∀ c ∈ (if i = 0 then " uint = iota" else "" : GoString).data, c ≠ '\n' := by
      intro c hc
      by_cases h0 : i = 0
      · rw [if_pos h0] at hc
        revert c
        decide
      · rw [if_neg h0] at hc
        cases hc
    have hline : '\n' ∉ '\t' :: (name.data ++ (if i = 0 then " uint = iota" else "" : GoString).data) := by
      intro hmem
      rcases List.mem_cons.1 hmem with e | hmem
      · exact absurd e (by decide)
      · rcases List.mem_append.1 hmem with h1 | h1
        · exact (identChar_ne u _ (hchars _ h1)).1 rfl
        · exact hsuf _ h1 rfl
    have hdata : (resourceLines i (name :: rest)).data ++ [')', '\n'] =
        ('\t' :: (name.data ++ (if i = 0 then " uint = iota" else "" : GoString).data)) ++
          '\n' :: ((resourceLines (i + 1) rest).data ++ [')', '\n']) := by
      simp only [resourceLines, String.data_append, List.append_assoc, List.cons_append,
        List.nil_append, List.singleton_append]
    rw [hdata, splitLines_line _ _ hline]
    have hne : ('\t' :: (name.data ++ (if i = 0 then " uint = iota" else "" : GoString).data)) ≠
        [')'] := by
      intro e
      simp only [List.cons.injEq] at e
      exact absurd e.1 (by decide)
    have hname2 : isIdentifier u (String.mk name.data) = true := hname
    by_cases h0 : i = 0
    · subst h0
      have hdrop : (dropLeading ['\t'] ('\t' :: (name.data ++ (" uint = iota" : GoString).data))).bind
          (dropTrailing " uint = iota".data) = some name.data := by
        simp only [dropLeading, if_true, Option.bind_some]
        exact dropTrailing_append _ _
      simp only [if_true] at hne ⊢
      rw [parseSpecs, if_neg hne]
      simp only [if_true, hdrop, hname2, hrest, resourceSpecs]
    · have hdrop : dropLeading ['\t'] ('\t' :: (name.data ++ ("" : GoString).data)) =
          some name.data := by
        simp [dropLeading]
      simp only [if_neg h0] at hne ⊢
      rw [parseSpecs, if_neg hne]
      simp only [if_neg h0, hdrop, hname2, hrest, resourceSpecs, if_true]

/-- The text printed for the name set `{"B","A","C"}`, the path `strings` and the package
`resid`, with the identity as digest function. -/
theorem generatedSource_example :
    generatedSource ["strings"] "resid" id (NameSet.ofAdds ["B", "A", "C"]) =
      "// Code generated by \"trgenresid strings\"; DO NOT EDIT.\n" ++
      "\n" ++
      "package resid\n" ++
      "// VersionHash is a string uniquely identifying this set of resource IDs\n" ++
      "const VersionHash = \"A,B,C\"\n" ++
      "\n" ++
      "// Resource identifiers\n" ++
      "const (\n" ++
      "\tA uint = iota\n" ++
      "\tB\n" ++
      "\tC\n" ++
      ")\n" := by
  rfl

/-- A comment line of the generated text is read as a comment. -/
theorem isLineComment_of_chars (c : List Char) (h : ∀ x ∈ c, commentChar x = true) :
    isLineComment ('/' :: '/' :: c) = true ∧ '\n' ∉ '/' :: '/' :: c := by
  constructor
  · simp only [isLineComment, dropLeading, if_true]
    rw [List.all_eq_true]
    exact h
  · intro hmem
    rcases List.mem_cons.1 hmem with e | hmem
    · exact absurd e (by decide)
    · rcases List.mem_cons.1 hmem with e | hmem
      · exact absurd e (by decide)
      · exact commentChar_ne _ (h _ hmem) rfl

/-- The text of the shape that `parseGenerated` reads, put together from its pieces. -/
theorem parseGenerated_shape (u : UnicodeTables) (c0 p c3 h c6 body : List Char)
    (specs : List ValueSpec)
    (hc0 : ∀ x ∈ c0, commentChar x = true) (hp : isIdentifier u (String.mk p) = true)
    (hc3 : ∀ x ∈ c3, commentChar x = true) (hh : ∀ x ∈ h, literalChar x = true)
    (hc6 : ∀ x ∈ c6, commentChar x = true)
    (hbody : parseSpecs u 0 (splitLines body) = some specs) :
    parseGenerated u (String.mk
      (('/' :: '/' :: c0) ++ '\n' :: ([] ++ '\n' :: (("package ".data ++ p) ++ '\n' ::
        (('/' :: '/' :: c3) ++ '\n' :: (("const VersionHash = \"".data ++ (h ++ ['"'])) ++ '\n' ::
          ([] ++ '\n' :: (('/' :: '/' :: c6) ++ '\n' :: ("const (".data ++ '\n' :: body))))))))) =
      .ok ⟨String.mk p, [.gen .CONST [⟨["VersionHash"], none, [.strLit (String.mk h)]⟩],
        .gen .CONST specs]⟩ := by
  obtain ⟨h0, n0⟩ := isLineComment_of_chars c0 hc0
  obtain ⟨h3, n3⟩ := isLineComment_of_chars c3 hc3
  obtain ⟨h6, n6⟩ := isLineComment_of_chars c6 hc6
  have n2 : '\n' ∉ "package ".data ++ p := by
    intro hmem
    rcases List.mem_append.1 hmem with e | e
    · revert e
      decide
    · exact (identChar_ne u _ (isIdentifier_chars u _ hp _ e)).1 rfl
  have n4 : '\n' ∉ "const VersionHash = \"".data ++ (h ++ ['"']) := by
    intro hmem
    rcases List.mem_append.1 hmem with e | e
    · revert e
      decide
    · rcases List.mem_append.1 e with e | e
      · exact literalChar_ne _ (hh _ e) rfl
      · revert e
        decide
  have n7 : '\n' ∉ "const (".data := by decide
  have hd4 : dropTrailing ['"'] (h ++ ['"']) = some h := dropTrailing_append _ _
  have hall : h.all literalChar = true := by
    rw [List.all_eq_true]
    exact hh
  unfold parseGenerated
  simp only [splitLines_line _ _ n0, splitLines_line _ _ (List.not_mem_nil _),
    splitLines_line _ _ n2, splitLines_line _ _ n3, splitLines_line _ _ n4,
    splitLines_line _ _ n6, splitLines_line _ _ n7, dropLeading_append, Option.bind_some,
    Option.some_bind, hd4, hbody, h0, hp, h3, hall, h6, and_self, if_true]

set_option maxRecDepth 8000 in
/-- The file that the generator writes, when what it prints with `%s` scans as it is meant
to: the syntax tree with the hash and the names of the set. -/
theorem generatedFile_ok (u : UnicodeTables) (args : List GoString) (gopackage : GoString)
    (sha1hex : GoString → GoString) (ns : NameSet) (hw : ns.WF)
    (hargs : ∀ a ∈ args, ∀ c ∈ a.data, commentChar c = true)
    (hpkg : isIdentifier u gopackage = true)
    (hhash : ∀ c ∈ (ns.Hash sha1hex).1.data, literalChar c = true)
    (hid : ∀ x ∈ ns.Names.1, isIdentifier u x = true) :
    generatedFile u args gopackage sha1hex ns =
      .ok ⟨gopackage, [.gen .CONST [⟨["VersionHash"], none, [.strLit (ns.Hash sha1hex).1]⟩],
        .gen .CONST (resourceSpecs 0 ns.Names.1)]⟩ := by
  have hn : (ns.Hash sha1hex).2.Names.1 = ns.Names.1 := by
    simp only [NameSet.Hash, NameSet.Names_Names ns hw]
  have hjoin := stringsJoin_space_chars args hargs
  have hc0 : ∀ x ∈ " Code generated by \"trgenresid ".data ++
      ((stringsJoin args " ").data ++ "\"; DO NOT EDIT.".data), commentChar x = true := by
    have hA : ∀ x ∈ " Code generated by \"trgenresid ".data, commentChar x = true := by decide
    have hB : ∀ x ∈ "\"; DO NOT EDIT.".data, commentChar x = true := by decide
    intro x hx
    rcases List.mem_append.1 hx with e | e
    · exact hA x e
    · rcases List.mem_append.1 e with e | e
      · exact hjoin x e
      · exact hB x e
  have hsrc : generatedSource args gopackage sha1hex ns = String.mk
      (('/' :: '/' :: (" Code generated by \"trgenresid ".data ++
          ((stringsJoin args " ").data ++ "\"; DO NOT EDIT.".data))) ++ '\n' ::
        ([] ++ '\n' :: (("package ".data ++ gopackage.data) ++ '\n' ::
        (('/' :: '/' ::
            " VersionHash is a string uniquely identifying this set of resource IDs".data) ++
          '\n' ::
        (("const VersionHash = \"".data ++ ((ns.Hash sha1hex).1.data ++ ['"'])) ++ '\n' ::
        ([] ++ '\n' :: (('/' :: '/' :: " Resource identifiers".data) ++ '\n' ::
        ("const (".data ++ '\n' :: ((resourceLines 0 ns.Names.1).data ++ [')', '\n']))))))))) := by
    apply String.ext
    simp only [generatedSource, hn, String.data_append, List.append_assoc, List.cons_append,
      List.nil_append]
  unfold generatedFile
  rw [hsrc]
  exact parseGenerated_shape u _ gopackage.data _ (ns.Hash sha1hex).1.data _ _ _ hc0 hpkg
    (by decide) hhash (by decide) (parseSpecs_resourceLines u ns.Names.1 0 hid)

theorem firstDuplicate_of_nodup (l : List GoString) (h : l.Nodup) : firstDuplicate l = none := by
  induction l with
  | nil => rfl
  | cons a rest ih =>
    rw [List.nodup_cons] at h
    simp [firstDuplicate, h.1, ih h.2]

theorem Checked.all_map_ok {α β : Type} (f : α → Checked β) (g : α → β) (l : List α)
    (h : ∀ a ∈ l, f a = .ok (g a)) : Checked.all (l.map f) = .ok (l.map g) := by
  induction l with
  | nil => rfl
  | cons a rest ih =>
    have h1 := h a (List.mem_cons_self _ _)
    have h2 := ih (fun b hb => h b (List.mem_cons_of_mem _ hb))
    simp only [List.map_cons, Checked.all, h1, h2, Checked.both]

/-- The object of a constant of the resource identifier block, in a package that declares
neither `uint` nor `iota`. -/
theorem checkBinding_resource (declared : List GoString) (n : GoString) (k : Nat)
    (hu : "uint" ∉ declared) (hi : "iota" ∉ declared) (hk : k < 2 ^ 64) :
    checkBinding declared ⟨n, k, some (.ident "uint"), .iota⟩ =
      .ok (n, .Const (some "uint") (.int k)) := by
  have hty : resolveType declared (.ident "uint") =
      .ok ("uint", .integer 0 (2 ^ 64 - 1)) := by
    unfold resolveType
    rw [if_neg hu]
    rfl
  have hin : initValue declared ⟨n, k, some (.ident "uint"), .iota⟩ = .ok (.int k) := by
    unfold initValue
    simp only [if_neg hi]
    rfl
  have hrange : (0 : Int) ≤ (k : Int) ∧ (k : Int) ≤ 2 ^ 64 - 1 := by
    constructor
    · exact Int.ofNat_nonneg k
    · have : (k : Int) < 2 ^ 64 := by exact_mod_cast hk
      omega
  unfold checkBinding
  simp only [hty, hin, Checked.both, assignConst, if_pos hrange]

theorem checkBinding_versionHash (declared : List GoString) (hash : GoString) :
    checkBinding declared ⟨"VersionHash", 0, none, .strLit hash⟩ =
      .ok ("VersionHash", .Const none (.str hash)) := by
  simp [checkBinding, initValue, ConstBinding.value, Checked.both, assignConst]

theorem mapGet_of_mem_nodup {α : Type} (m : List (GoString × α)) (k : GoString) (v : α)
    (hn : (m.map Prod.fst).Nodup) (h : (k, v) ∈ m) : mapGet m k = some v := by
  induction m with
  | nil => cases h
  | cons a rest ih =>
    obtain ⟨k1, v1⟩ := a
    simp only [List.map_cons, List.nodup_cons] at hn
    rcases List.mem_cons.1 h with e | hmem
    · cases e
      simp [mapGet]
    · have hne : k ≠ k1 := by
        intro e
        subst e
        exact hn.1 (List.mem_map.2 ⟨(k, v), hmem, rfl⟩)
      simp only [mapGet, if_neg hne]
      exact ih hn.2 hmem

theorem mapSet_of_not_mem {α : Type} (m : List (GoString × α)) (k : GoString) (v : α)
    (h : k ∉ m.map Prod.fst) : mapSet m k v = m ++ [(k, v)] := by
  induction m with
  | nil => rfl
  | cons a rest ih =>
    obtain ⟨k1, v1⟩ := a
    simp only [List.map_cons, List.mem_cons, not_or] at h
    simp only [mapSet, if_neg h.1, List.cons_append, ih h.2]

theorem numbered_getElem? (names : List GoString) :
    ∀ i k, (numbered i names)[k]? = names[k]?.map (fun n => (n, i + k)) := by
  induction names with
  | nil => intro i k; simp [numbered]
  | cons name rest ih =>
    intro i k
    cases k with
    | zero => simp [numbered]
    | succ k =>
      simp only [numbered, List.getElem?_cons_succ, ih (i + 1) k]
      have e : i + 1 + k = i + (k + 1) := by omega
      rw [e]

theorem numbered_mem (names : List GoString) :
    ∀ i p, p ∈ numbered i names → p.1 ∈ names ∧ i ≤ p.2 ∧ p.2 < i + names.length := by
  induction names with
  | nil => intro i p h; simp [numbered] at h
  | cons name rest ih =>
    intro i p h
    simp only [numbered, List.mem_cons] at h
    rcases h with e | h
    · subst e
      simp
    · obtain ⟨h1, h2, h3⟩ := ih (i + 1) p h
      refine ⟨List.mem_cons_of_mem _ h1, by omega, ?_⟩
      simp only [List.length_cons]
      omega

/-- The value of `MaxID()` on the names numbered from `i` on. -/
theorem foldl_max_numbered (names : List GoString) :
    ∀ i m, m ≤ i →
      (numbered i names).foldl (fun max kv => if kv.2 > max then kv.2 else max) m =
        if names = [] then m else i + names.length - 1 := by
  induction names with
  | nil => intro i m _; rfl
  | cons name rest ih =>
    intro i m hm
    have hstep : (if i > m then i else m) = i := by
      by_cases h : i > m
      · rw [if_pos h]
      · rw [if_neg h]; omega
    simp only [numbered, List.foldl_cons, hstep]
    rw [ih (i + 1) i (by omega)]
    by_cases hr : rest = []
    · simp [hr]
    · have hc : ¬ (name :: rest = []) := by simp
      rw [if_neg hr, if_neg hc, List.length_cons]
      omega

theorem resourceIDsInSpecs_resourceSpecs_succ (names : List GoString) (hb : "_" ∉ names) :
    ∀ i, 0 < i → resourceIDsInSpecs "uint" (resourceSpecs i names) = names := by
  induction names with
  | nil => intro i _; rfl
  | cons name rest ih =>
    intro i hi
    have hne : i ≠ 0 := by omega
    simp only [List.mem_cons, not_or] at hb
    have hn : name ≠ "_" := fun e => hb.1 e.symm
    simp [resourceSpecs, hne, resourceIDsInSpecs, hn, ih hb.2 (i + 1) (by omega)]

theorem resourceIDsInSpecs_resourceSpecs (names : List GoString) (hb : "_" ∉ names) :
    resourceIDsInSpecs "" (resourceSpecs 0 names) = names := by
  cases names with
  | nil => rfl
  | cons name rest =>
    simp only [List.mem_cons, not_or] at hb
    have hn : name ≠ "_" := fun e => hb.1 e.symm
    simp [resourceSpecs, resourceIDsInSpecs, hn,
      resourceIDsInSpecs_resourceSpecs_succ rest hb.2 1 (by omega)]

theorem Uint64Val_ofNat (i : Nat) (hi : i < 2 ^ 64) :
    Uint64Val (.int (i : Int)) = some (some i) := by
  show Uint64Val (.int (Int.ofNat i)) = _
  simp only [Uint64Val, if_pos hi]

theorem resourceBindings_numbered (names : List GoString) :
    ∀ i, (resourceBindings i names).map (fun b => (b.name, b.iota)) = numbered i names := by
  induction names with
  | nil => intro i; rfl
  | cons name rest ih => intro i; simp [resourceBindings, numbered, ih (i + 1)]

/-- The loop of `LoadPackage` over identifiers whose objects are the numbered constants. -/
theorem readIdentValues_numbered (defs : Defs) (names : List GoString) :
    ∀ (i : Nat) (acc : List (GoString × Nat)),
      names.Nodup → (∀ x ∈ names, x ∉ acc.map Prod.fst) → i + names.length ≤ 2 ^ 64 →
      (∀ p ∈ numbered i names, mapGet defs p.1 = some (.Const (some "uint") (.int p.2))) →
      readIdentValues defs acc names = some (.ok (acc ++ numbered i names)) := by
  induction names with
  | nil => intro i acc _ _ _ _; simp [readIdentValues, numbered]
  | cons name rest ih =>
    intro i acc hnd hacc hsz hdefs
    rw [List.nodup_cons] at hnd
    simp only [List.length_cons] at hsz
    have hd := hdefs (name, i) (by simp [numbered])
    have hu : Uint64Val (.int (i : Int)) = some (some i) := Uint64Val_ofNat i (by omega)
    have hset := mapSet_of_not_mem acc name i (hacc name (List.mem_cons_self _ _))
    have hrec := ih (i + 1) (acc ++ [(name, i)]) hnd.2
      (by
        intro x hx
        simp only [List.map_append, List.map_cons, List.map_nil, List.mem_append,
          List.mem_singleton, not_or]
        refine ⟨hacc x (List.mem_cons_of_mem _ hx), ?_⟩
        intro e
        subst e
        exact hnd.1 hx)
      (by omega)
      (fun p hp => hdefs p (by simp [numbered, hp]))
    simp only [readIdentValues, hd, hu, hset, hrec, numbered]
    simp

/-- The type check of a file with the declarations of the generator, for distinct names that
avoid the identifiers which the file itself declares or uses. -/
theorem goCheck_resourceFile (gopackage hash : GoString) (names : List GoString)
    (hnd : names.Nodup)
    (hres : ∀ x ∈ names, x ∉ ["_", "VersionHash", "uint", "iota", "init"])
    (hblank : gopackage ≠ "_")
    (hmain : gopackage = "main" → "main" ∉ names)
    (hsize : names.length ≤ 2 ^ 64) :
    goCheck [⟨gopackage, [.gen .CONST [⟨["VersionHash"], none, [.strLit hash]⟩],
        .gen .CONST (resourceSpecs 0 names)]⟩] =
      .ok (("VersionHash", .Const none (.str hash)) ::
        (numbered 0 names).map (fun p => (p.1, .Const (some "uint") (.int p.2)))) := by
  have hnot : ∀ r ∈ ["_", "VersionHash", "uint", "iota", "init"], r ∉ names :=
    fun r hr hmem => hres r hmem hr
  have hpk : checkPackageNames "" [(⟨gopackage,
      [.gen .CONST [⟨["VersionHash"], none, [.strLit hash]⟩],
        .gen .CONST (resourceSpecs 0 names)]⟩ : File)] = none := by
    simp [checkPackageNames, hblank]
  have hbind : bindDecls [.gen .CONST [⟨["VersionHash"], none, [.strLit hash]⟩],
      .gen .CONST (resourceSpecs 0 names)] =
      some (.ok (⟨"VersionHash", 0, none, .strLit hash⟩ :: resourceBindings 0 names)) := by
    simp [bindDecls, bindSpecs, bindSpecs_resourceSpecs]
  have hdecl : (((⟨"VersionHash", 0, none, .strLit hash⟩ ::
      resourceBindings 0 names : List ConstBinding).map (fun b => b.name)).filter
        (fun n => n ≠ "_")) = "VersionHash" :: names := by
    simp only [List.map_cons, (resourceBindings_spec names 0).1]
    rw [List.filter_cons_of_pos (by decide)]
    congr 1
    rw [List.filter_eq_self]
    intro a ha
    have : a ≠ "_" := fun e => hnot "_" (by simp) (e ▸ ha)
    simpa using this
  have hinit : "init" ∉ "VersionHash" :: names := by
    simp only [List.mem_cons, not_or]
    exact ⟨by decide, hnot "init" (by simp)⟩
  have hmn : ¬ ("main" ∈ "VersionHash" :: names ∧
      ([(⟨gopackage, [.gen .CONST [⟨["VersionHash"], none, [.strLit hash]⟩],
        .gen .CONST (resourceSpecs 0 names)]⟩ : File)].any (fun f => f.Name = "main")) = true) := by
    rintro ⟨h1, h2⟩
    have hp : gopackage = "main" := by simpa using h2
    rcases List.mem_cons.1 h1 with e | h
    · exact absurd e (by decide)
    · exact hmain hp h
  have hdup : firstDuplicate ("VersionHash" :: names) = none :=
    firstDuplicate_of_nodup _ (List.nodup_cons.2 ⟨hnot "VersionHash" (by simp), hnd⟩)
  have hu : "uint" ∉ "VersionHash" :: names := by
    simp only [List.mem_cons, not_or]
    exact ⟨by decide, hnot "uint" (by simp)⟩
  have hi : "iota" ∉ "VersionHash" :: names := by
    simp only [List.mem_cons, not_or]
    exact ⟨by decide, hnot "iota" (by simp)⟩
  have hall : Checked.all ((resourceBindings 0 names).map
      (checkBinding ("VersionHash" :: names))) =
      .ok ((resourceBindings 0 names).map
        (fun b => (b.name, Object.Const (some "uint") (.int b.iota)))) := by
    apply Checked.all_map_ok
    intro b hb
    obtain ⟨h1, h2, _, h4⟩ := (resourceBindings_spec names 0).2.2 b hb
    have hb2 : b = ⟨b.name, b.iota, some (.ident "uint"), .iota⟩ := by
      cases b
      simp only at h1 h2
      simp [h1, h2]
    rw [hb2]
    exact checkBinding_resource _ _ _ hu hi (by omega)
  have hobjs : (resourceBindings 0 names).map
      (fun b => (b.name, Object.Const (some "uint") (.int b.iota))) =
      (numbered 0 names).map (fun p => (p.1, Object.Const (some "uint") (.int p.2))) := by
    rw [← resourceBindings_numbered names 0, List.map_map]
    rfl
  have hflat : [(⟨gopackage, [.gen .CONST [⟨["VersionHash"], none, [.strLit hash]⟩],
      .gen .CONST (resourceSpecs 0 names)]⟩ : File)].flatMap (fun f => f.Decls) =
      [.gen .CONST [⟨["VersionHash"], none, [.strLit hash]⟩],
        .gen .CONST (resourceSpecs 0 names)] := by simp
  have hfilter : ((("VersionHash", Object.Const none (.str hash)) ::
      (numbered 0 names).map (fun p => (p.1, Object.Const (some "uint") (.int p.2)))).filter
        (fun p => p.1 ≠ "_")) =
      (("VersionHash", Object.Const none (.str hash)) ::
        (numbered 0 names).map (fun p => (p.1, Object.Const (some "uint") (.int p.2)))) := by
    rw [List.filter_eq_self]
    intro p hp
    rcases List.mem_cons.1 hp with e | hp
    · subst e
      simp
    · obtain ⟨q, hq, e⟩ := List.mem_map.1 hp
      subst e
      have hmem := (numbered_mem names 0 q hq).1
      have : q.1 ≠ "_" := fun e => hnot "_" (by simp) (e ▸ hmem)
      simpa using this
  unfold goCheck
  rw [hpk, hflat, hbind]
  simp only [hdecl]
  simp only [if_neg hinit, if_neg hmn, hdup, List.map_cons, Checked.all,
    checkBinding_versionHash, hall, Checked.both, hobjs, hfilter]

/-- What `LoadPackage` reads from a file with the declarations of the generator, for distinct
names that avoid the identifiers which the file itself declares or uses. -/
theorem LoadPackage_resourceFile (gopackage hash : GoString) (names : List GoString)
    (hnd : names.Nodup)
    (hres : ∀ x ∈ names, x ∉ ["_", "VersionHash", "uint", "iota", "init"])
    (hsize : names.length ≤ 2 ^ 64) :
    LoadPackage [⟨gopackage, [.gen .CONST [⟨["VersionHash"], none, [.strLit hash]⟩],
        .gen .CONST (resourceSpecs 0 names)]⟩]
      (.ok (("VersionHash", .Const none (.str hash)) ::
        (numbered 0 names).map (fun p => (p.1, .Const (some "uint") (.int p.2))))) =
      some (.ok { VersionHash := hash, Names := numbered 0 names }) := by
  have hnot : ∀ r ∈ ["_", "VersionHash", "uint", "iota", "init"], r ∉ names :=
    fun r hr hmem => hres r hmem hr
  have hvh : findVersionHashIdent [(⟨gopackage,
      [.gen .CONST [⟨["VersionHash"], none, [.strLit hash]⟩],
        .gen .CONST (resourceSpecs 0 names)]⟩ : File)] = some "VersionHash" := by
    simp [findVersionHashIdent, versionHashInDecls, versionHashInSpecs]
  have hids : findResourceIDIdents [(⟨gopackage,
      [.gen .CONST [⟨["VersionHash"], none, [.strLit hash]⟩],
        .gen .CONST (resourceSpecs 0 names)]⟩ : File)] = names := by
    unfold findResourceIDIdents
    rw [List.flatMap_singleton]
    simp [resourceIDsInDecls, resourceIDsInSpecs,
      resourceIDsInSpecs_resourceSpecs _ (hnot "_" (by simp))]
  have hkeys : ((numbered 0 names).map
      (fun p => (p.1, Object.Const (some "uint") (.int p.2)))).map Prod.fst = names := by
    rw [List.map_map]
    exact (numbered_spec names 0).1
  have hread := readIdentValues_numbered
    (("VersionHash", Object.Const none (.str hash)) ::
      (numbered 0 names).map (fun p => (p.1, Object.Const (some "uint") (.int p.2))))
    names 0 [] hnd (by simp) (by omega)
    (by
      intro p hp
      have hmem := (numbered_mem names 0 p hp).1
      have hne : p.1 ≠ "VersionHash" := fun e => hnot "VersionHash" (by simp) (e ▸ hmem)
      simp only [mapGet, if_neg hne]
      exact mapGet_of_mem_nodup _ _ _ (by rw [hkeys]; exact hnd)
        (List.mem_map.2 ⟨p, hp, rfl⟩))
  unfold LoadPackage
  simp only [hvh, hids, readVersionHash, mapGet, if_true, StringVal, hread, List.nil_append]

/-- The object that the type check records for the name at position `i`. -/
theorem mapGet_numbered_defs (hash : GoString) (names : List GoString) (hnd : names.Nodup)
    (hv : "VersionHash" ∉ names) (i : Nat) (hi : i < names.length) :
    mapGet (("VersionHash", Object.Const none (.str hash)) ::
        (numbered 0 names).map (fun p => (p.1, Object.Const (some "uint") (.int p.2))))
      names[i] = some (.Const (some "uint") (.int i)) := by
  have hne : names[i] ≠ "VersionHash" := fun e => hv (e ▸ List.getElem_mem hi)
  have hkeys : ((numbered 0 names).map
      (fun p => (p.1, Object.Const (some "uint") (.int p.2)))).map Prod.fst = names := by
    rw [List.map_map]
    exact (numbered_spec names 0).1
  have h := numbered_getElem? names 0 i
  rw [List.getElem?_eq_getElem hi] at h
  simp only [Option.map_some', Nat.zero_add] at h
  simp only [mapGet, if_neg hne]
  exact mapGet_of_mem_nodup _ _ _ (by rw [hkeys]; exact hnd)
    (List.mem_map.2 ⟨(names[i], i), List.getElem?_mem h, rfl⟩)

/-- C8 (amended). Identifier assignment by rank: for a name set of at most `2^64` names that
are Go identifiers other than `_`, `VersionHash`, `uint`, `iota` and `init` (and other than
`main` in package `main`), generated with a package name that is an identifier other than
`_`, the second declaration of the generated file is the block of the names of `Names()`
(first constant `uint = iota`, the rest by implicit repetition), the file type-checks, and
the constant declared for the name at position `i` has type `uint` and value `i`; the names
are distinct, the assignment is injective and the identifiers are exactly `0..N-1`. -/
theorem identifiers_assigned_by_rank (u : UnicodeTables) (args : List GoString)
    (gopackage : GoString) (sha1hex : GoString → GoString) (xs : List GoString)
    (hargs : ∀ a ∈ args, ∀ c ∈ a.data, commentChar c = true)
    (hpkg : isIdentifier u gopackage = true) (hblank : gopackage ≠ "_")
    (hhash : ∀ c ∈ ((NameSet.ofAdds xs).Hash sha1hex).1.data, literalChar c = true)
    (hid : ∀ x ∈ xs, isIdentifier u x = true)
    (hres : ∀ x ∈ xs, x ∉ ["_", "VersionHash", "uint", "iota", "init"])
    (hmain : gopackage = "main" → "main" ∉ xs)
    (hsize : (NameSet.ofAdds xs).Names.1.length ≤ 2 ^ 64) :
    ∃ (file : File) (defs : Defs),
      generatedFile u args gopackage sha1hex (NameSet.ofAdds xs) = .ok file ∧
      file.Decls[1]? = some (.gen .CONST (resourceSpecs 0 (NameSet.ofAdds xs).Names.1)) ∧
      goCheck [file] = .ok defs ∧
      (∀ i (hi : i < (NameSet.ofAdds xs).Names.1.length),
        mapGet defs (NameSet.ofAdds xs).Names.1[i] = some (.Const (some "uint") (.int i))) ∧
      (NameSet.ofAdds xs).Names.1.map (mapGet defs) =
        (List.range (NameSet.ofAdds xs).Names.1.length).map
          (fun i : Nat => some (Object.Const (some "uint") (.int (i : Int)))) ∧
      (NameSet.ofAdds xs).Names.1.Nodup ∧
      (∀ n ∈ (NameSet.ofAdds xs).Names.1, ∀ m ∈ (NameSet.ofAdds xs).Names.1,
        mapGet defs n = mapGet defs m → n = m) := by
  have hw := NameSet.ofAdds_WF xs
  obtain ⟨_, hnd, hmem⟩ := NameSet.ofAdds_Names xs
  have hres1 : ∀ x ∈ (NameSet.ofAdds xs).Names.1,
      x ∉ ["_", "VersionHash", "uint", "iota", "init"] :=
    fun x hx => hres x ((hmem x).1 hx)
  have hmain1 : gopackage = "main" → "main" ∉ (NameSet.ofAdds xs).Names.1 :=
    fun e h => hmain e ((hmem _).1 h)
  have hid1 : ∀ x ∈ (NameSet.ofAdds xs).Names.1, isIdentifier u x = true :=
    fun x hx => hid x ((hmem x).1 hx)
  have hv : "VersionHash" ∉ (NameSet.ofAdds xs).Names.1 :=
    fun h => hres1 _ h (by simp)
  have hget := mapGet_numbered_defs ((NameSet.ofAdds xs).Hash sha1hex).1
    (NameSet.ofAdds xs).Names.1 hnd hv
  refine ⟨_, _, generatedFile_ok u args gopackage sha1hex _ hw hargs hpkg hhash hid1, rfl,
    goCheck_resourceFile gopackage _ _ hnd hres1 hblank hmain1 hsize, hget, ?_, hnd, ?_⟩
  · apply List.ext_getElem
    · simp
    · intro i h1 h2
      have hi : i < (NameSet.ofAdds xs).Names.1.length := by simpa using h1
      simp only [List.getElem_map, List.getElem_range]
      exact hget i hi
  · intro n hn m hm h
    obtain ⟨i, hi, rfl⟩ := List.getElem_of_mem hn
    obtain ⟨j, hj, rfl⟩ := List.getElem_of_mem hm
    rw [hget i hi, hget j hj] at h
    have hij : i = j := by
      simp only [Option.some.injEq, Object.Const.injEq, Value.int.injEq, true_and] at h
      exact_mod_cast h
    subst hij
    rfl

/-- Witness of C8: the name set `{"B","A","C"}` generated from the path `strings` into the
package `resid`, with only ASCII letters and digits in identifiers; the digest function is
taken to be the identity. -/
theorem identifiers_assigned_by_rank_witness :
    ∃ (file : File) (defs : Defs),
      generatedFile asciiTables ["strings"] "resid" id (NameSet.ofAdds ["B", "A", "C"]) =
        .ok file ∧
      file.Decls[1]? =
        some (.gen .CONST (resourceSpecs 0 (NameSet.ofAdds ["B", "A", "C"]).Names.1)) ∧
      goCheck [file] = .ok defs ∧
      (∀ i (hi : i < (NameSet.ofAdds ["B", "A", "C"]).Names.1.length),
        mapGet defs (NameSet.ofAdds ["B", "A", "C"]).Names.1[i] =
          some (.Const (some "uint") (.int i))) ∧
      (NameSet.ofAdds ["B", "A", "C"]).Names.1.map (mapGet defs) =
        (List.range (NameSet.ofAdds ["B", "A", "C"]).Names.1.length).map
          (fun i : Nat => some (Object.Const (some "uint") (.int (i : Int)))) ∧
      (NameSet.ofAdds ["B", "A", "C"]).Names.1.Nodup ∧
      (∀ n ∈ (NameSet.ofAdds ["B", "A", "C"]).Names.1,
        ∀ m ∈ (NameSet.ofAdds ["B", "A", "C"]).Names.1,
        mapGet defs n = mapGet defs m → n = m) :=
  identifiers_assigned_by_rank asciiTables ["strings"] "resid" id ["B", "A", "C"]
    (by decide) (by decide) (by decide) (by decide) (by decide) (by decide) (by decide)
    (by decide)

/-- C8 (counterexample). Name sets whose names are Go identifiers and whose generated file
declares no identifier by rank.  For `{"uint"}` the file is `const ( uint uint = iota )`,
where `uint` names the constant itself, and the type check fails.  For `{"_", "a"}` the file
type-checks, the blank name at position `0` declares nothing, and `a`, the one constant of
the block, has the value `1`.  For `{"iota"}` and for `{"init"}` the type check fails. -/
theorem identifiers_not_by_rank_for_reserved_names :
    ((NameSet.ofAdds ["uint"]).Names.1 = ["uint"] ∧
      isIdentifier asciiTables "uint" = true ∧
      generatedFile asciiTables ["strings"] "resid" id (NameSet.ofAdds ["uint"]) =
        .ok ⟨"resid", [.gen .CONST [⟨["VersionHash"], none, [.strLit "uint"]⟩],
          .gen .CONST [⟨["uint"], some (.ident "uint"), [.iota]⟩]]⟩ ∧
      goCheck [⟨"resid", [.gen .CONST [⟨["VersionHash"], none, [.strLit "uint"]⟩],
          .gen .CONST [⟨["uint"], some (.ident "uint"), [.iota]⟩]]⟩] =
        .error "uint is not a type") ∧
    ((NameSet.ofAdds ["a", "_"]).Names.1 = ["_", "a"] ∧
      isIdentifier asciiTables "_" = true ∧ isIdentifier asciiTables "a" = true ∧
      generatedFile asciiTables ["strings"] "resid" id (NameSet.ofAdds ["a", "_"]) =
        .ok ⟨"resid", [.gen .CONST [⟨["VersionHash"], none, [.strLit "_,a"]⟩],
          .gen .CONST [⟨["_"], some (.ident "uint"), [.iota]⟩, ⟨["a"], none, []⟩]]⟩ ∧
      goCheck [⟨"resid", [.gen .CONST [⟨["VersionHash"], none, [.strLit "_,a"]⟩],
          .gen .CONST [⟨["_"], some (.ident "uint"), [.iota]⟩, ⟨["a"], none, []⟩]]⟩] =
        .ok [("VersionHash", .Const none (.str "_,a")),
          ("a", .Const (some "uint") (.int 1))]) ∧
    (isIdentifier asciiTables "iota" = true ∧
      generatedFile asciiTables ["strings"] "resid" id (NameSet.ofAdds ["iota"]) =
        .ok ⟨"resid", [.gen .CONST [⟨["VersionHash"], none, [.strLit "iota"]⟩],
          .gen .CONST [⟨["iota"], some (.ident "uint"), [.iota]⟩]]⟩ ∧
      goCheck [⟨"resid", [.gen .CONST [⟨["VersionHash"], none, [.strLit "iota"]⟩],
          .gen .CONST [⟨["iota"], some (.ident "uint"), [.iota]⟩]]⟩] =
        .error "initialization cycle: iota refers to itself") ∧
    (isIdentifier asciiTables "init" = true ∧
      generatedFile asciiTables ["strings"] "resid" id (NameSet.ofAdds ["init"]) =
        .ok ⟨"resid", [.gen .CONST [⟨["VersionHash"], none, [.strLit "init"]⟩],
          .gen .CONST [⟨["init"], some (.ident "uint"), [.iota]⟩]]⟩ ∧
      goCheck [⟨"resid", [.gen .CONST [⟨["VersionHash"], none, [.strLit "init"]⟩],
          .gen .CONST [⟨["init"], some (.ident "uint"), [.iota]⟩]]⟩] =
        .error "cannot declare init - must be func") := by
  decide

/-- C9 (amended). Generate/extract round trip: for a name set of at most `2^64` names that
are Go identifiers other than `_`, `VersionHash`, `uint`, `iota` and `init` (and other than
`main` in package `main`), generated with a package name that is an identifier other than
`_`, the file that the generator writes type-checks and the extractor reads from it the
fingerprint `Hash()`, `Names` mapping the name at sorted position `i` to `i`, and
`MaxID() = N-1` (`0` for the empty set). -/
theorem generate_extract_round_trip (u : UnicodeTables) (args : List GoString)
    (gopackage : GoString) (sha1hex : GoString → GoString) (xs : List GoString)
    (hargs : ∀ a ∈ args, ∀ c ∈ a.data, commentChar c = true)
    (hpkg : isIdentifier u gopackage = true) (hblank : gopackage ≠ "_")
    (hhash : ∀ c ∈ ((NameSet.ofAdds xs).Hash sha1hex).1.data, literalChar c = true)
    (hid : ∀ x ∈ xs, isIdentifier u x = true)
    (hres : ∀ x ∈ xs, x ∉ ["_", "VersionHash", "uint", "iota", "init"])
    (hmain : gopackage = "main" → "main" ∉ xs)
    (hsize : (NameSet.ofAdds xs).Names.1.length ≤ 2 ^ 64) :
    ∃ (file : File) (defs : Defs) (r : ResourceIDSet),
      generatedFile u args gopackage sha1hex (NameSet.ofAdds xs) = .ok file ∧
      goCheck [file] = .ok defs ∧
      LoadPackage [file] (.ok defs) = some (.ok r) ∧
      r.VersionHash = ((NameSet.ofAdds xs).Hash sha1hex).1 ∧
      r.Names = (NameSet.ofAdds xs).Names.1.zip
        (List.range (NameSet.ofAdds xs).Names.1.length) ∧
      (∀ i (hi : i < (NameSet.ofAdds xs).Names.1.length),
        mapGet r.Names (NameSet.ofAdds xs).Names.1[i] = some i) ∧
      r.MaxID = (NameSet.ofAdds xs).Names.1.length - 1 := by
  have hw := NameSet.ofAdds_WF xs
  obtain ⟨_, hnd, hmem⟩ := NameSet.ofAdds_Names xs
  have hres1 : ∀ x ∈ (NameSet.ofAdds xs).Names.1,
      x ∉ ["_", "VersionHash", "uint", "iota", "init"] :=
    fun x hx => hres x ((hmem x).1 hx)
  have hmain1 : gopackage = "main" → "main" ∉ (NameSet.ofAdds xs).Names.1 :=
    fun e h => hmain e ((hmem _).1 h)
  have hid1 : ∀ x ∈ (NameSet.ofAdds xs).Names.1, isIdentifier u x = true :=
    fun x hx => hid x ((hmem x).1 hx)
  have hzip := (numbered_spec (NameSet.ofAdds xs).Names.1 0).2.2
  rw [← List.range_eq_range'] at hzip
  refine ⟨_, _, _, generatedFile_ok u args gopackage sha1hex _ hw hargs hpkg hhash hid1,
    goCheck_resourceFile gopackage _ _ hnd hres1 hblank hmain1 hsize,
    LoadPackage_resourceFile gopackage _ _ hnd hres1 hsize, rfl, hzip, ?_, ?_⟩
  · intro i hi
    refine mapGet_of_mem_nodup _ _ _ ?_ ?_
    · rw [(numbered_spec _ 0).1]
      exact hnd
    · have h := numbered_getElem? (NameSet.ofAdds xs).Names.1 0 i
      rw [List.getElem?_eq_getElem hi] at h
      simp only [Option.map_some', Nat.zero_add] at h
      exact List.getElem?_mem h
  · show (numbered 0 (NameSet.ofAdds xs).Names.1).foldl _ 0 = _
    rw [foldl_max_numbered _ 0 0 (le_refl 0)]
    by_cases he : (NameSet.ofAdds xs).Names.1 = []
    · simp [he]
    · simp [he]

/-- Witness of C9: the name set `{"B","A","C"}` of the specification, generated from the
path `strings` into the package `resid` and read back as `{A:0, B:1, C:2}` with
`MaxID() = 2`; the digest function is taken to be the identity, which shows the digested
string. -/
theorem generate_extract_round_trip_witness :
    (∃ (file : File) (defs : Defs) (r : ResourceIDSet),
      generatedFile asciiTables ["strings"] "resid" id (NameSet.ofAdds ["B", "A", "C"]) =
        .ok file ∧
      goCheck [file] = .ok defs ∧
      LoadPackage [file] (.ok defs) = some (.ok r) ∧
      r.VersionHash = ((NameSet.ofAdds ["B", "A", "C"]).Hash id).1 ∧
      r.Names = (NameSet.ofAdds ["B", "A", "C"]).Names.1.zip
        (List.range (NameSet.ofAdds ["B", "A", "C"]).Names.1.length) ∧
      (∀ i (hi : i < (NameSet.ofAdds ["B", "A", "C"]).Names.1.length),
        mapGet r.Names (NameSet.ofAdds ["B", "A", "C"]).Names.1[i] = some i) ∧
      r.MaxID = (NameSet.ofAdds ["B", "A", "C"]).Names.1.length - 1) ∧
    (NameSet.ofAdds ["B", "A", "C"]).Names.1.zip
        (List.range (NameSet.ofAdds ["B", "A", "C"]).Names.1.length) =
      [("A", 0), ("B", 1), ("C", 2)] ∧
    (ResourceIDSet.mk "A,B,C" [("A", 0), ("B", 1), ("C", 2)]).MaxID = 2 :=
  ⟨generate_extract_round_trip asciiTables ["strings"] "resid" id ["B", "A", "C"]
      (by decide) (by decide) (by decide) (by decide) (by decide) (by decide) (by decide)
      (by decide),
   by decide, by decide⟩

/-- C9 (counterexample). The name set `{"VersionHash"}`: its one name is a Go identifier,
the generated file declares `VersionHash` twice, the type check reports the redeclaration,
and `LoadPackage` returns that error instead of a set of identifiers.  So it is for the
package name `_`, which the type check rejects whatever the names, and for the name `main`
in the package `main`. -/
theorem generate_extract_fails_for_name_VersionHash :
    ((NameSet.ofAdds ["VersionHash"]).Names.1 = ["VersionHash"] ∧
      isIdentifier asciiTables "VersionHash" = true ∧
      generatedFile asciiTables ["strings"] "resid" id (NameSet.ofAdds ["VersionHash"]) =
        .ok ⟨"resid", [.gen .CONST [⟨["VersionHash"], none, [.strLit "VersionHash"]⟩],
          .gen .CONST [⟨["VersionHash"], some (.ident "uint"), [.iota]⟩]]⟩ ∧
      goCheck [⟨"resid", [.gen .CONST [⟨["VersionHash"], none, [.strLit "VersionHash"]⟩],
          .gen .CONST [⟨["VersionHash"], some (.ident "uint"), [.iota]⟩]]⟩] =
        .error "VersionHash redeclared in this block" ∧
      LoadPackage [⟨"resid", [.gen .CONST [⟨["VersionHash"], none, [.strLit "VersionHash"]⟩],
          .gen .CONST [⟨["VersionHash"], some (.ident "uint"), [.iota]⟩]]⟩]
        (.error "VersionHash redeclared in this block") =
        some (.error "VersionHash redeclared in this block")) ∧
    (isIdentifier asciiTables "_" = true ∧
      generatedFile asciiTables ["strings"] "_" id (NameSet.ofAdds ["A"]) =
        .ok ⟨"_", [.gen .CONST [⟨["VersionHash"], none, [.strLit "A"]⟩],
          .gen .CONST [⟨["A"], some (.ident "uint"), [.iota]⟩]]⟩ ∧
      goCheck [⟨"_", [.gen .CONST [⟨["VersionHash"], none, [.strLit "A"]⟩],
          .gen .CONST [⟨["A"], some (.ident "uint"), [.iota]⟩]]⟩] =
        .error "invalid package name _" ∧
      LoadPackage [⟨"_", [.gen .CONST [⟨["VersionHash"], none, [.strLit "A"]⟩],
          .gen .CONST [⟨["A"], some (.ident "uint"), [.iota]⟩]]⟩]
        (.error "invalid package name _") = some (.error "invalid package name _")) ∧
    (isIdentifier asciiTables "main" = true ∧
      generatedFile asciiTables ["strings"] "main" id (NameSet.ofAdds ["main"]) =
        .ok ⟨"main", [.gen .CONST [⟨["VersionHash"], none, [.strLit "main"]⟩],
          .gen .CONST [⟨["main"], some (.ident "uint"), [.iota]⟩]]⟩ ∧
      goCheck [⟨"main", [.gen .CONST [⟨["VersionHash"], none, [.strLit "main"]⟩],
          .gen .CONST [⟨["main"], some (.ident "uint"), [.iota]⟩]]⟩] =
        .error "cannot declare main - must be func" ∧
      LoadPackage [⟨"main", [.gen .CONST [⟨["VersionHash"], none, [.strLit "main"]⟩],
          .gen .CONST [⟨["main"], some (.ident "uint"), [.iota]⟩]]⟩]
        (.error "cannot declare main - must be func") =
        some (.error "cannot declare main - must be func")) := by
  decide

/-! ## Registry and remaining properties (translate.go, language.go, ids.go, main.go) -/

theorem foldl_max_mem (names : List (GoString × Nat)) :
    ∀ init : Nat,
      names.foldl (fun max kv => if kv.2 > max then kv.2 else max) init = init ∨
      ∃ kv ∈ names, kv.2 = names.foldl (fun max kv => if kv.2 > max then kv.2 else max) init := by
  induction names with
  | nil => intro init; left; rfl
  | cons a rest ih =>
    intro init
    simp only [List.foldl_cons]
    rcases ih (if a.2 > init then a.2 else init) with h | ⟨kv, hkv, h⟩
    · rw [h]
      by_cases hc : a.2 > init
      · right
        rw [if_pos hc]
        exact ⟨a, List.mem_cons_self _ _, rfl⟩
      · left
        rw [if_neg hc]
    · right
      exact ⟨kv, List.mem_cons_of_mem _ hkv, h⟩

/-- C16. For every `ResourceIDSet`, `MaxID()` is `0` when `Names` is empty, and otherwise
it is an identifier that occurs in `Names` and is greater than or equal to every identifier
in `Names`. -/
theorem MaxID_spec (r : ResourceIDSet) :
    (r.Names = [] → r.MaxID = 0) ∧
    (r.Names ≠ [] →
      (∃ kv ∈ r.Names, kv.2 = r.MaxID) ∧ ∀ kv ∈ r.Names, kv.2 ≤ r.MaxID) := by
  constructor
  · intro h
    simp [ResourceIDSet.MaxID, h]
  · intro hne
    have hge : ∀ kv ∈ r.Names, kv.2 ≤ r.MaxID := (foldl_max_ge r.Names 0).2
    refine ⟨?_, hge⟩
    rcases foldl_max_mem r.Names 0 with h | h
    · obtain ⟨a, rest, e⟩ := List.exists_cons_of_ne_nil hne
      have ha : a ∈ r.Names := by rw [e]; exact List.mem_cons_self _ _
      have h0 : r.MaxID = 0 := h
      have := hge a ha
      exact ⟨a, ha, by omega⟩
    · exact h

/-- Witness of C16: the identifiers `A=0, B=1, C=2`, whose `MaxID()` is `2`, the
identifier of `C`. -/
theorem MaxID_spec_witness :
    (ResourceIDSet.mk "h" [("A", 0), ("B", 1), ("C", 2)]).MaxID = 2 ∧
    ((∃ kv ∈ (ResourceIDSet.mk "h" [("A", 0), ("B", 1), ("C", 2)]).Names,
        kv.2 = (ResourceIDSet.mk "h" [("A", 0), ("B", 1), ("C", 2)]).MaxID) ∧
      ∀ kv ∈ (ResourceIDSet.mk "h" [("A", 0), ("B", 1), ("C", 2)]).Names,
        kv.2 ≤ (ResourceIDSet.mk "h" [("A", 0), ("B", 1), ("C", 2)]).MaxID) :=
  ⟨by decide, (MaxID_spec ⟨"h", [("A", 0), ("B", 1), ("C", 2)]⟩).2 (by decide)⟩

/-- C17. A language's sequence never shrinks: every call of `addStrings` returns, with a
sequence at least as long as before, and after an accepted call at least as long as the
incoming table; `ensureStringsLen(req)` changes nothing when `req` is at most the current
length. -/
theorem strings_never_shrink (l : Language) (sd : PackedStringsData) :
    (∃ l1 err, l.addStrings sd = some (l1, err) ∧
      l.strings.length ≤ l1.strings.length ∧
      (err = none → sd.Strings.length ≤ l1.strings.length)) ∧
    (∀ req, req ≤ l.strings.length → l.ensureStringsLen req = l) := by
  constructor
  · rcases addStrings_cases l sd with ⟨h, _⟩ | ⟨h, _⟩ | ⟨_, hl, hv⟩
    · exact ⟨l, _, h, le_refl _, fun e => by cases e⟩
    · exact ⟨l, _, h, le_refl _, fun e => by cases e⟩
    · obtain ⟨strings, h1, h2, _⟩ := addStrings_accept l sd hl hv
      refine ⟨_, _, h1, ?_, fun _ => ?_⟩
      · show l.strings.length ≤ strings.length
        rw [h2]
        exact le_max_left _ _
      · show sd.Strings.length ≤ strings.length
        rw [h2]
        exact le_trans (Nat.le_succ _) (le_max_right _ _)
  · intro req hreq
    unfold Language.ensureStringsLen
    rw [if_pos hreq]

/-- C18 (the code at the failing input). A language that has had no table added rejects
the table `{Lang: "en", VersionHash: "h", Strings: ["a"]}` with the language-names error
and keeps its empty name and fingerprint; it does so for every table whose `Lang` is not
empty. -/
theorem addStrings_rejects_first_load :
    (Language.mk "" "" []).addStrings ⟨"en", "h", ["a"]⟩ =
      some (⟨"", "", []⟩, some errLanguageNames) ∧
    (∀ sd : PackedStringsData, sd.Lang ≠ "" →
      (Language.mk "" "" []).addStrings sd = some (⟨"", "", []⟩, some errLanguageNames)) := by
  constructor
  · decide
  · intro sd h
    unfold Language.addStrings
    rw [if_pos h]

/-- C19 (the code at the failing input). For the package `const VersionHash = 42`, which
type-checks with `VersionHash` an untyped integer constant, `findVersionHashIdent` returns
the identifier and `LoadPackage` panics in `constant.StringVal`.  For the package
`const ( A uint = iota; B (int) = 7; C )`, where `C` inherits the type `int`, the set of
names that `LoadPackage` returns contains `C`. -/
theorem LoadPackage_not_tolerant :
    (goCheck [⟨"resid", [.gen .CONST [⟨["VersionHash"], none, [.intLit 42]⟩]]⟩] =
        .ok [("VersionHash", .Const none (.int 42))] ∧
      findVersionHashIdent [⟨"resid", [.gen .CONST [⟨["VersionHash"], none, [.intLit 42]⟩]]⟩] =
        some "VersionHash" ∧
      LoadPackage [⟨"resid", [.gen .CONST [⟨["VersionHash"], none, [.intLit 42]⟩]]⟩]
        (.ok [("VersionHash", .Const none (.int 42))]) = none) ∧
    (goCheck [⟨"resid", [.gen .CONST [⟨["A"], some (.ident "uint"), [.iota]⟩,
        ⟨["B"], some (.paren (.ident "int")), [.intLit 7]⟩, ⟨["C"], none, []⟩]]⟩] =
        .ok [("A", .Const (some "uint") (.int 0)), ("B", .Const (some "int") (.int 7)),
          ("C", .Const (some "int") (.int 7))] ∧
      LoadPackage [⟨"resid", [.gen .CONST [⟨["A"], some (.ident "uint"), [.iota]⟩,
        ⟨["B"], some (.paren (.ident "int")), [.intLit 7]⟩, ⟨["C"], none, []⟩]]⟩]
        (.ok [("A", .Const (some "uint") (.int 0)), ("B", .Const (some "int") (.int 7)),
          ("C", .Const (some "int") (.int 7))]) =
        some (.ok { VersionHash := "", Names := [("A", 0), ("C", 7)] })) := by
  decide!

/-- C20 (the code at the failing input). For the identifiers `A=5, Z=2^64-1` the length
`MaxID()+1` wraps to `0`, `make` returns an empty slice, the store at the identifier `5` of
the one translated name is out of range, and `packFile` panics. -/
theorem packFile_store_out_of_range :
    (ResourceIDSet.mk "h" [("A", 5), ("Z", 2 ^ 64 - 1)]).MaxID = 2 ^ 64 - 1 ∧
    ((ResourceIDSet.mk "h" [("A", 5), ("Z", 2 ^ 64 - 1)]).MaxID + 1) % 2 ^ 64 = 0 ∧
    makeStrings (2 ^ 63 - 1) 0 = some [] ∧
    mapGet (ResourceIDSet.mk "h" [("A", 5), ("Z", 2 ^ 64 - 1)]).Names "A" = some 5 ∧
    storeAt [] 5 "x" = none ∧
    packFile (2 ^ 63 - 1) ⟨"en", [("A", "x")]⟩ ⟨"h", [("A", 5), ("Z", 2 ^ 64 - 1)]⟩ = none := by
  decide

theorem mapSet_same {α : Type} (m : List (GoString × α)) (k : GoString) (v : α)
    (h : mapGet m k = some v) : mapSet m k v = m := by
  induction m with
  | nil => simp [mapGet] at h
  | cons a rest ih =>
    obtain ⟨k1, v1⟩ := a
    unfold mapGet at h
    unfold mapSet
    by_cases hk : k = k1
    · rw [if_pos hk] at h
      cases h
      rw [if_pos hk]
    · rw [if_neg hk] at h
      rw [if_neg hk, ih h]

/-- A call of `Domain.LoadStrings` whose table differs from a non-empty constraint of the
domain returns the mismatch error and leaves the domain as it was. -/
theorem LoadStrings_constraint (d : Domain) (sd : PackedStringsData)
    (hne : d.versionHash ≠ "") (hdiff : d.versionHash ≠ sd.VersionHash) :
    d.LoadStrings sd = some (d, some errVersionHash) := by
  unfold Domain.LoadStrings
  rw [if_pos ⟨hne, hdiff⟩]

/-- A table either differs from a non-empty constraint of the domain or passes it. -/
theorem constraint_cases (d : Domain) (sd : PackedStringsData) :
    (d.versionHash ≠ "" ∧ d.versionHash ≠ sd.VersionHash) ∨
      (d.versionHash = "" ∨ d.versionHash = sd.VersionHash) := by
  by_cases h0 : d.versionHash = ""
  · exact Or.inr (Or.inl h0)
  · by_cases h1 : d.versionHash = sd.VersionHash
    · exact Or.inr (Or.inr h1)
    · exact Or.inl ⟨h0, h1⟩

/-- A call of `Domain.LoadStrings` on a domain whose map is nil, with a table that passes
the constraint: the assignment to the map panics. -/
theorem LoadStrings_nil (d : Domain) (sd : PackedStringsData)
    (hpass : d.versionHash = "" ∨ d.versionHash = sd.VersionHash) (hnil : d.langs = none) :
    d.LoadStrings sd = none := by
  have hguard : ¬ (d.versionHash ≠ "" ∧ d.versionHash ≠ sd.VersionHash) := by
    rcases hpass with h | h <;> simp [h]
  unfold Domain.LoadStrings
  rw [if_neg hguard]
  simp only [hnil]

/-- A call of `Domain.LoadStrings` whose table passes the constraint of the domain, when a
language is loaded for the tag of the table. -/
theorem LoadStrings_known (d : Domain) (sd : PackedStringsData)
    (m : List (GoString × Language)) (lang : Language)
    (hpass : d.versionHash = "" ∨ d.versionHash = sd.VersionHash)
    (hm : d.langs = some m) (hl : mapGet m sd.Lang = some lang) :
    d.LoadStrings sd =
      match lang.addStrings sd with
      | none => none
      | some (lang1, err) =>
        some ({ d with langs := some (mapSet m sd.Lang lang1) }, err) := by
  have hguard : ¬ (d.versionHash ≠ "" ∧ d.versionHash ≠ sd.VersionHash) := by
    rcases hpass with h | h <;> simp [h]
  unfold Domain.LoadStrings
  rw [if_neg hguard]
  simp only [hm, hl]

/-- A call of `Domain.LoadStrings` whose table passes the constraint of the domain, when the
map is allocated and no language is loaded for the tag of the table: the new language is
entered and the table merged into it. -/
theorem LoadStrings_new (d : Domain) (sd : PackedStringsData)
    (m : List (GoString × Language))
    (hpass : d.versionHash = "" ∨ d.versionHash = sd.VersionHash)
    (hm : d.langs = some m) (hl : mapGet m sd.Lang = none) :
    ∃ strings, d.LoadStrings sd =
        some ({ d with langs := some (mapSet (mapSet m sd.Lang ⟨sd.Lang, "", []⟩) sd.Lang
                  ⟨sd.Lang, sd.VersionHash, strings⟩) }, none) ∧
      strings.length = sd.Strings.length + 1 ∧
      ∀ j, strings[j]? =
        if (sd.Strings.getD j "") ≠ "" then some (sd.Strings.getD j "")
        else (List.replicate (sd.Strings.length + 1) "")[j]? := by
  have hguard : ¬ (d.versionHash ≠ "" ∧ d.versionHash ≠ sd.VersionHash) := by
    rcases hpass with h | h <;> simp [h]
  obtain ⟨strings, h1, h2, h3⟩ := addStrings_fresh sd.Lang sd.VersionHash sd.Strings
  refine ⟨strings, ?_, h2, h3⟩
  unfold Domain.LoadStrings
  rw [if_neg hguard]
  simp only [hm, hl]
  have h1' : (Language.mk sd.Lang "" []).addStrings sd =
      some (⟨sd.Lang, sd.VersionHash, strings⟩, none) := h1
  rw [h1']

/-- The map of a domain made by `NewDomain` is allocated, and it stays allocated through
`SetVersionHash` and through every call of `LoadStrings` that returns. -/
theorem langs_allocated :
    NewDomain.langs ≠ none ∧
    (∀ (d : Domain) (h : GoString), d.langs ≠ none → (d.SetVersionHash h).langs ≠ none) ∧
    (∀ (d d1 : Domain) (sd : PackedStringsData) (err : Option GoString),
      d.langs ≠ none → d.LoadStrings sd = some (d1, err) → d1.langs ≠ none) := by
  refine ⟨by decide, fun d h hd => hd, ?_⟩
  intro d d1 sd err hd hload
  rcases constraint_cases d sd with hg | hpass
  · rw [LoadStrings_constraint d sd hg.1 hg.2] at hload
    cases hload
    exact hd
  · cases hm : d.langs with
    | none => exact absurd hm hd
    | some m =>
      cases hl : mapGet m sd.Lang with
      | none =>
        obtain ⟨strings, hnew, _, _⟩ := LoadStrings_new d sd m hpass hm hl
        rw [hnew] at hload
        cases hload
        simp
      | some lang =>
        rw [LoadStrings_known d sd m lang hpass hm hl] at hload
        cases ha : lang.addStrings sd with
        | none => rw [ha] at hload; cases hload
        | some res =>
          obtain ⟨lang1, err1⟩ := res
          rw [ha] at hload
          cases hload
          simp

/-- The lookups of a language after the strings of a first table were merged into it. -/
theorem String_after_first_load (lang h : GoString) (strs strings : List GoString)
    (hlen : strings.length = strs.length + 1)
    (hget : ∀ j, strings[j]? =
      if (strs.getD j "") ≠ "" then some (strs.getD j "")
      else (List.replicate (strs.length + 1) "")[j]?) :
    (∀ i (hi : i < strs.length), (Language.mk lang h strings).String i = some strs[i]) ∧
    (∀ i, strs.length ≤ i → (Language.mk lang h strings).String i = some "") := by
  constructor
  · intro i hi
    have hlt : i < strings.length := by omega
    have hg := hget i
    rw [List.getD_eq_getElem _ _ hi] at hg
    unfold Language.String loadAt
    simp only [hlt, if_true]
    rw [hg]
    by_cases he : strs[i] = ""
    · have hr : i < strs.length + 1 := by omega
      simp [he, hr]
    · simp [he]
  · intro i hi
    unfold Language.String loadAt
    by_cases hlt : i < strings.length
    · simp only [hlt, if_true]
      have hd : strs.getD i "" = "" := by
        simp [List.getD_eq_getElem?_getD, List.getElem?_eq_none hi]
      have hr : i < strs.length + 1 := by omega
      rw [hget i, hd, if_neg (by simp)]
      simp [hr]
    · simp [hlt]

/-- C11 (amended). First load through the registry: when the map of the domain is allocated
(the domain was made by `NewDomain`), the domain holds no language for the tag of the table
and the table passes the fingerprint constraint of the domain, `LoadStrings` returns `nil`;
afterwards `Language(tag)` returns a language with that name, bound to the fingerprint of
the table, whose `String(i)` is the string of the table at every position `i` of the table
and the empty string at every other `i`; the languages of other tags and the constraint are
unchanged, and the map is still allocated. -/
theorem LoadStrings_first_load (d : Domain) (sd : PackedStringsData)
    (halloc : d.langs ≠ none)
    (hno : ∀ l, d.Language sd.Lang ≠ .ok l)
    (hpass : d.versionHash = "" ∨ d.versionHash = sd.VersionHash) :
    ∃ d1 l, d.LoadStrings sd = some (d1, none) ∧ d1.Language sd.Lang = .ok l ∧
      l.name = sd.Lang ∧ l.versionHash = sd.VersionHash ∧
      (∀ i (hi : i < sd.Strings.length), l.String i = some sd.Strings[i]) ∧
      (∀ i, sd.Strings.length ≤ i → l.String i = some "") ∧
      (∀ t, t ≠ sd.Lang → d1.Language t = d.Language t) ∧
      d1.versionHash = d.versionHash ∧ d1.langs ≠ none := by
  cases hm : d.langs with
  | none => exact absurd hm halloc
  | some m =>
    have hl : mapGet m sd.Lang = none := by
      cases hg : mapGet m sd.Lang with
      | none => rfl
      | some l =>
        exfalso
        apply hno l
        simp only [Domain.Language, hm, hg]
    obtain ⟨strings, hload, hlen, hget⟩ := LoadStrings_new d sd m hpass hm hl
    obtain ⟨hin, hout⟩ :=
      String_after_first_load sd.Lang sd.VersionHash sd.Strings strings hlen hget
    refine ⟨_, ⟨sd.Lang, sd.VersionHash, strings⟩, hload, ?_, rfl, rfl, hin, hout, ?_, rfl,
      by simp⟩
    · simp [Domain.Language, mapGet_mapSet]
    · intro t ht
      simp [Domain.Language, hm, mapGet_mapSet, ht]

/-- Witness of C11: the table `["a","","c"]` for `en` loaded into a new domain. -/
theorem LoadStrings_first_load_witness :
    ∃ d1 l, NewDomain.LoadStrings ⟨"en", "h", ["a", "", "c"]⟩ = some (d1, none) ∧
      d1.Language "en" = .ok l ∧ l.name = "en" ∧ l.versionHash = "h" ∧
      (∀ i (hi : i < ["a", "", "c"].length), l.String i = some ["a", "", "c"][i]) ∧
      (∀ i, ["a", "", "c"].length ≤ i → l.String i = some "") ∧
      (∀ t, t ≠ "en" → d1.Language t = NewDomain.Language t) ∧
      d1.versionHash = NewDomain.versionHash ∧ d1.langs ≠ none :=
  LoadStrings_first_load NewDomain ⟨"en", "h", ["a", "", "c"]⟩ (by decide)
    (fun l h => by cases h) (by decide)

/-- C11 (counterexample). The zero value `Domain{}`, whose map is nil: it holds no language
for `en` and has no constraint, and the first load of the table
`{Lang: "en", VersionHash: "h", Strings: ["a"]}` panics in the assignment to the map; so does
the load of every other table. -/
theorem LoadStrings_panics_on_zero_Domain :
    (Domain.mk none "").Language "en" = .error (errUnknownLanguage "en") ∧
    (Domain.mk none "").versionHash = "" ∧
    (Domain.mk none "").LoadStrings ⟨"en", "h", ["a"]⟩ = none ∧
    (∀ sd : PackedStringsData, (Domain.mk none "").LoadStrings sd = none) :=
  ⟨by decide, rfl, by decide, fun sd => LoadStrings_nil _ sd (Or.inl rfl) rfl⟩

/-- C12. Registry-level constraint: when the fingerprint constraint of the domain is not
empty and the table has another fingerprint, `LoadStrings` returns the version-hash-mismatch
error and the domain after the call is the domain before it: no entry is created for the
tag of the table and every loaded language keeps its name, fingerprint and strings. -/
theorem LoadStrings_constraint_rejects (d : Domain) (sd : PackedStringsData)
    (hne : d.versionHash ≠ "") (hdiff : sd.VersionHash ≠ d.versionHash) :
    d.LoadStrings sd = some (d, some errVersionHash) ∧
    (∀ d1 err, d.LoadStrings sd = some (d1, err) →
      err = some errVersionHash ∧ d1.langs = d.langs ∧ d1.versionHash = d.versionHash ∧
      ∀ t, d1.Language t = d.Language t) := by
  have h := LoadStrings_constraint d sd hne (fun e => hdiff e.symm)
  refine ⟨h, ?_⟩
  intro d1 err h1
  rw [h] at h1
  cases h1
  exact ⟨rfl, rfl, rfl, fun _ => rfl⟩

/-- Witness of C12: a domain that requires `h1` and holds `en`, and a table with `h2` for
`et`. -/
theorem LoadStrings_constraint_rejects_witness :
    (Domain.mk (some [("en", ⟨"en", "h1", ["a", ""]⟩)]) "h1").LoadStrings
        ⟨"et", "h2", ["b"]⟩ =
      some (⟨some [("en", ⟨"en", "h1", ["a", ""]⟩)], "h1"⟩, some errVersionHash) ∧
    (∀ d1 err,
      (Domain.mk (some [("en", ⟨"en", "h1", ["a", ""]⟩)]) "h1").LoadStrings
          ⟨"et", "h2", ["b"]⟩ = some (d1, err) →
      err = some errVersionHash ∧ d1.langs = some [("en", ⟨"en", "h1", ["a", ""]⟩)] ∧
      d1.versionHash = "h1" ∧
      ∀ t, d1.Language t =
        (Domain.mk (some [("en", ⟨"en", "h1", ["a", ""]⟩)]) "h1").Language t) :=
  LoadStrings_constraint_rejects ⟨some [("en", ⟨"en", "h1", ["a", ""]⟩)], "h1"⟩
    ⟨"et", "h2", ["b"]⟩ (by decide) (by decide)

theorem addStrings_accepted_fields (l l1 : Language) (sd : PackedStringsData)
    (h : l.addStrings sd = some (l1, none)) :
    l1.name = sd.Lang ∧ l1.versionHash = sd.VersionHash ∧ sd.Lang = l.name ∧
      (l.versionHash = "" ∨ l.versionHash = sd.VersionHash) := by
  rcases addStrings_cases l sd with ⟨h1, _⟩ | ⟨h1, _⟩ | ⟨_, hl, hv⟩
  · rw [h1] at h; cases h
  · rw [h1] at h; cases h
  · obtain ⟨strings, h1, _⟩ := addStrings_accept l sd hl hv
    rw [h1] at h
    cases h
    exact ⟨rfl, rfl, hl, hv⟩

theorem addStrings_mismatch (l : Language) (sd : PackedStringsData) (hl : sd.Lang = l.name)
    (hne : l.versionHash ≠ "") (hdiff : l.versionHash ≠ sd.VersionHash) :
    l.addStrings sd = some (l, some errVersionHash) := by
  unfold Language.addStrings
  rw [if_neg (by simp [hl]), if_pos ⟨hne, hdiff⟩]

/-- What an accepted call of `Domain.LoadStrings` leaves: the table passed the constraint,
the constraint is the same, the map is allocated, and the language of the table's tag has
the tag as its name and is bound to the fingerprint of the table. -/
theorem LoadStrings_accepted (d d1 : Domain) (sd : PackedStringsData)
    (h : d.LoadStrings sd = some (d1, none)) :
    (d.versionHash = "" ∨ d.versionHash = sd.VersionHash) ∧ d1.versionHash = d.versionHash ∧
      ∃ m1 l1, d1.langs = some m1 ∧ mapGet m1 sd.Lang = some l1 ∧ l1.name = sd.Lang ∧
        l1.versionHash = sd.VersionHash := by
  rcases constraint_cases d sd with hg | hpass
  · rw [LoadStrings_constraint d sd hg.1 hg.2] at h
    cases h
  · refine ⟨hpass, ?_⟩
    cases hm : d.langs with
    | none =>
      rw [LoadStrings_nil d sd hpass hm] at h
      cases h
    | some m =>
      cases hl : mapGet m sd.Lang with
      | none =>
        obtain ⟨strings, hload, _, _⟩ := LoadStrings_new d sd m hpass hm hl
        rw [hload] at h
        cases h
        exact ⟨rfl, _, ⟨sd.Lang, sd.VersionHash, strings⟩, rfl, by simp [mapGet_mapSet],
          rfl, rfl⟩
      | some lang =>
        rw [LoadStrings_known d sd m lang hpass hm hl] at h
        cases ha : lang.addStrings sd with
        | none => rw [ha] at h; cases h
        | some res =>
          obtain ⟨lang1, err⟩ := res
          rw [ha] at h
          simp only [Option.some.injEq, Prod.mk.injEq] at h
          obtain ⟨hd, he⟩ := h
          subst he
          subst hd
          obtain ⟨h1, h2, _, _⟩ := addStrings_accepted_fields lang lang1 sd ha
          exact ⟨rfl, _, lang1, rfl, by simp [mapGet_mapSet], h1, h2⟩

/-- After an accepted load of a table with a non-empty fingerprint through a domain, the load
of a table for the same tag with another fingerprint returns the version-hash-mismatch
error and leaves the domain as it was. -/
theorem LoadStrings_mismatch_after_accepted (d d1 : Domain) (t1 t2 : PackedStringsData)
    (hlang : t1.Lang = t2.Lang) (hdiff : t1.VersionHash ≠ t2.VersionHash)
    (hne : t1.VersionHash ≠ "") (hacc : d.LoadStrings t1 = some (d1, none)) :
    d1.LoadStrings t2 = some (d1, some errVersionHash) := by
  obtain ⟨hpass, hv, m1, l1, hm1, hget, hn, hh⟩ := LoadStrings_accepted d d1 t1 hacc
  rcases constraint_cases d1 t2 with hg | hpass2
  · exact LoadStrings_constraint d1 t2 hg.1 hg.2
  · have hget2 : mapGet m1 t2.Lang = some l1 := by rw [← hlang]; exact hget
    rw [LoadStrings_known d1 t2 m1 l1 hpass2 hm1 hget2,
      addStrings_mismatch l1 t2 (by rw [hn, hlang]) (by rw [hh]; exact hne)
        (by rw [hh]; exact hdiff)]
    simp only [mapSet_same _ _ _ hget2]
    cases d1
    simp only at hm1
    subst hm1
    rfl

/-- C13 (amended). Compatibility enforcement: for every two tables for one tag whose
fingerprints differ, the first being non-empty, once the first was loaded into a language
(a new language for the tag accepts it) the load of the second returns the
version-hash-mismatch error and leaves the language as it was; the same holds for the two
loads through a domain, which the second leaves as it was. -/
theorem mismatch_after_first_load :
    (∀ (l l1 : Language) (t1 t2 : PackedStringsData),
      t1.Lang = t2.Lang → t1.VersionHash ≠ t2.VersionHash → t1.VersionHash ≠ "" →
      l.addStrings t1 = some (l1, none) →
      l1.addStrings t2 = some (l1, some errVersionHash)) ∧
    (∀ t1 : PackedStringsData, ∃ l1,
      (Language.mk t1.Lang "" []).addStrings t1 = some (l1, none)) ∧
    (∀ (d d1 : Domain) (t1 t2 : PackedStringsData),
      t1.Lang = t2.Lang → t1.VersionHash ≠ t2.VersionHash → t1.VersionHash ≠ "" →
      d.LoadStrings t1 = some (d1, none) →
      d1.LoadStrings t2 = some (d1, some errVersionHash)) := by
  refine ⟨?_, ?_, ?_⟩
  · intro l l1 t1 t2 hlang hdiff hne hacc
    obtain ⟨h1, h2, _, _⟩ := addStrings_accepted_fields l l1 t1 hacc
    exact addStrings_mismatch l1 t2 (by rw [h1, hlang]) (by rw [h2]; exact hne)
      (by rw [h2]; exact hdiff)
  · intro t1
    obtain ⟨strings, h, _⟩ := addStrings_fresh t1.Lang t1.VersionHash t1.Strings
    exact ⟨_, h⟩
  · intro d d1 t1 t2 hlang hdiff hne hacc
    exact LoadStrings_mismatch_after_accepted d d1 t1 t2 hlang hdiff hne hacc

/-- Witness of C13: the tables `h1` and `h2` for `en`, loaded into a new language and into
a new domain. -/
theorem mismatch_after_first_load_witness :
    (Language.mk "en" "h1" ["a", ""]).addStrings ⟨"en", "h2", ["b"]⟩ =
      some (⟨"en", "h1", ["a", ""]⟩, some errVersionHash) ∧
    (Domain.mk (some [("en", ⟨"en", "h1", ["a", ""]⟩)]) "").LoadStrings ⟨"en", "h2", ["b"]⟩ =
      some (⟨some [("en", ⟨"en", "h1", ["a", ""]⟩)], ""⟩, some errVersionHash) :=
  ⟨mismatch_after_first_load.1 ⟨"en", "", []⟩ ⟨"en", "h1", ["a", ""]⟩ ⟨"en", "h1", ["a"]⟩
      ⟨"en", "h2", ["b"]⟩ (by decide) (by decide) (by decide) (by decide),
   mismatch_after_first_load.2.2 NewDomain ⟨some [("en", ⟨"en", "h1", ["a", ""]⟩)], ""⟩
      ⟨"en", "h1", ["a"]⟩ ⟨"en", "h2", ["b"]⟩ (by decide) (by decide) (by decide) (by decide)⟩

/-- C13 (counterexample). Two tables for `en` with the fingerprints `""` and `h2`: the
first load into a new language binds the empty fingerprint, and the second load is
accepted and changes the language; so it is through a new domain. -/
theorem second_load_accepted_after_empty_fingerprint :
    (Language.mk "en" "" []).addStrings ⟨"en", "", ["a"]⟩ =
      some (⟨"en", "", ["a", ""]⟩, none) ∧
    (Language.mk "en" "" ["a", ""]).addStrings ⟨"en", "h2", ["b"]⟩ =
      some (⟨"en", "h2", ["b", ""]⟩, none) ∧
    NewDomain.LoadStrings ⟨"en", "", ["a"]⟩ =
      some (⟨some [("en", ⟨"en", "", ["a", ""]⟩)], ""⟩, none) ∧
    (Domain.mk (some [("en", ⟨"en", "", ["a", ""]⟩)]) "").LoadStrings ⟨"en", "h2", ["b"]⟩ =
      some (⟨some [("en", ⟨"en", "h2", ["b", ""]⟩)], ""⟩, none) := by
  decide

/-- With no constraint on a domain whose map is allocated, `LoadStrings` returns for every
table, and it returns the version-hash-mismatch error exactly when a language is loaded
under the tag of the table, has that tag as its name and is bound to a non-empty
fingerprint other than the table's: the check of the domain rejects nothing, the check of
the language stays. -/
theorem LoadStrings_unconstrained (d : Domain) (sd : PackedStringsData)
    (m : List (GoString × Language)) (hm : d.langs = some m) :
    (∃ res, (d.SetVersionHash "").LoadStrings sd = some res) ∧
    ((∃ d1, (d.SetVersionHash "").LoadStrings sd = some (d1, some errVersionHash)) ↔
      ∃ l, mapGet m sd.Lang = some l ∧ l.name = sd.Lang ∧ l.versionHash ≠ "" ∧
        l.versionHash ≠ sd.VersionHash) := by
  have hpass : (d.SetVersionHash "").versionHash = "" ∨
      (d.SetVersionHash "").versionHash = sd.VersionHash := Or.inl rfl
  have hm0 : (d.SetVersionHash "").langs = some m := hm
  cases hl : mapGet m sd.Lang with
  | none =>
    obtain ⟨strings, hload, _, _⟩ := LoadStrings_new (d.SetVersionHash "") sd m hpass hm0 hl
    refine ⟨⟨_, hload⟩, ⟨?_, ?_⟩⟩
    · rintro ⟨d1, h⟩
      rw [hload] at h
      cases h
    · rintro ⟨l, h, _⟩
      cases h
  | some lang =>
    have hk := LoadStrings_known (d.SetVersionHash "") sd m lang hpass hm0 hl
    rcases addStrings_cases lang sd with ⟨h, hn⟩ | ⟨h, hn, hne, hdiff⟩ | ⟨⟨l2, h⟩, _, hv⟩
    · rw [h] at hk
      refine ⟨⟨_, hk⟩, ⟨?_, ?_⟩⟩
      · rintro ⟨d1, h1⟩
        rw [hk] at h1
        simp only [Option.some.injEq, Prod.mk.injEq] at h1
        exact absurd h1.2 (by decide)
      · rintro ⟨l, h1, h2, _⟩
        cases h1
        exact absurd h2.symm hn
    · rw [h] at hk
      exact ⟨⟨_, hk⟩, ⟨fun _ => ⟨lang, rfl, hn.symm, hne, hdiff⟩, fun _ => ⟨_, hk⟩⟩⟩
    · rw [h] at hk
      refine ⟨⟨_, hk⟩, ⟨?_, ?_⟩⟩
      · rintro ⟨d1, h1⟩
        rw [hk] at h1
        cases h1
      · rintro ⟨l, h1, _, h3, h4⟩
        cases h1
        rcases hv with e | e
        · exact absurd e h3
        · exact absurd e h4

/-- The characters of `strings.Join(a :: rest, ",")`: the first name, then every further
name after a comma. -/
theorem stringsJoin_cons_data (a : GoString) (rest : List GoString) :
    (stringsJoin (a :: rest) ",").data =
      a.data ++ rest.flatMap (fun b => ',' :: b.data) := by
  unfold stringsJoin String.intercalate
  rw [intercalate_go_data]
  rfl

theorem append_sep_inj {α : Type} (c : α) :
    ∀ (a b r s : List α), c ∉ a → c ∉ b → a ++ c :: r = b ++ c :: s → a = b ∧ r = s := by
  intro a
  induction a with
  | nil =>
    intro b r s _ hb h
    cases b with
    | nil =>
      simp only [List.nil_append, List.cons.injEq, true_and] at h
      exact ⟨rfl, h⟩
    | cons y b1 =>
      simp only [List.nil_append, List.cons_append, List.cons.injEq] at h
      exact absurd (h.1 ▸ List.mem_cons_self _ _) hb
  | cons x a1 ih =>
    intro b r s ha hb h
    cases b with
    | nil =>
      simp only [List.nil_append, List.cons_append, List.cons.injEq] at h
      exact absurd (h.1 ▸ List.mem_cons_self _ _) ha
    | cons y b1 =>
      simp only [List.cons_append, List.cons.injEq] at h
      obtain ⟨e1, e2⟩ := ih b1 r s (fun hm => ha (List.mem_cons_of_mem _ hm))
        (fun hm => hb (List.mem_cons_of_mem _ hm)) h.2
      exact ⟨by rw [h.1, e1], e2⟩

/-- Joining with commas loses nothing when no name contains a comma: a first name and the
names after it are determined by the joined characters. -/
theorem join_cons_inj (rest : List GoString) :
    ∀ (rest1 : List GoString) (a a1 : GoString),
      ',' ∉ a.data → ',' ∉ a1.data → (∀ b ∈ rest, ',' ∉ b.data) → (∀ b ∈ rest1, ',' ∉ b.data) →
      a.data ++ rest.flatMap (fun b => ',' :: b.data) =
        a1.data ++ rest1.flatMap (fun b => ',' :: b.data) →
      a = a1 ∧ rest = rest1 := by
  induction rest with
  | nil =>
    intro rest1 a a1 ha ha1 _ _ h
    cases rest1 with
    | nil =>
      simp only [List.flatMap_nil, List.append_nil] at h
      exact ⟨String.ext h, rfl⟩
    | cons b1 r1 =>
      simp only [List.flatMap_nil, List.append_nil, List.flatMap_cons, List.cons_append] at h
      exact absurd (h ▸ List.mem_append_right _ (List.mem_cons_self _ _)) ha
  | cons b r ih =>
    intro rest1 a a1 ha ha1 hr hr1 h
    cases rest1 with
    | nil =>
      simp only [List.flatMap_nil, List.append_nil, List.flatMap_cons, List.cons_append] at h
      exact absurd (h.symm ▸ List.mem_append_right _ (List.mem_cons_self _ _)) ha1
    | cons b1 r1 =>
      simp only [List.flatMap_cons, List.cons_append] at h
      obtain ⟨e1, e2⟩ := append_sep_inj ',' _ _ _ _ ha ha1 h
      obtain ⟨e3, e4⟩ := ih r1 b b1 (hr b (List.mem_cons_self _ _))
        (hr1 b1 (List.mem_cons_self _ _)) (fun x hx => hr x (List.mem_cons_of_mem _ hx))
        (fun x hx => hr1 x (List.mem_cons_of_mem _ hx)) e2
      exact ⟨String.ext e1, by rw [e3, e4]⟩

/-- Two lists of non-empty names without commas that `strings.Join` maps to the same string
are equal. -/
theorem stringsJoin_inj (xs ys : List GoString)
    (hx : ∀ x ∈ xs, x ≠ "" ∧ ',' ∉ x.data) (hy : ∀ y ∈ ys, y ≠ "" ∧ ',' ∉ y.data)
    (h : stringsJoin xs "," = stringsJoin ys ",") : xs = ys := by
  have hd := congrArg String.data h
  have hempty : ∀ (a : GoString) (rest : List GoString), a ≠ "" →
      (stringsJoin (a :: rest) ",").data ≠ [] := by
    intro a rest ha he
    rw [stringsJoin_cons_data] at he
    have : a.data = [] := (List.append_eq_nil.1 he).1
    exact ha (String.ext this)
  cases xs with
  | nil =>
    cases ys with
    | nil => rfl
    | cons b r =>
      have : (stringsJoin (b :: r) ",").data = [] := by rw [← hd]; rfl
      exact absurd this (hempty b r (hy b (List.mem_cons_self _ _)).1)
  | cons a r =>
    cases ys with
    | nil =>
      have : (stringsJoin (a :: r) ",").data = [] := by rw [hd]; rfl
      exact absurd this (hempty a r (hx a (List.mem_cons_self _ _)).1)
    | cons b r1 =>
      rw [stringsJoin_cons_data, stringsJoin_cons_data] at hd
      obtain ⟨e1, e2⟩ := join_cons_inj r r1 a b (hx a (List.mem_cons_self _ _)).2
        (hy b (List.mem_cons_self _ _)).2
        (fun x hm => (hx x (List.mem_cons_of_mem _ hm)).2)
        (fun x hm => (hy x (List.mem_cons_of_mem _ hm)).2) hd
      rw [e1, e2]

/-- C15 (amended). The digested string identifies the set of names when every name is
non-empty and contains no comma (as every Go identifier is): two sets built by `Add` calls
whose sorted names joined by a comma are the same string contain exactly the same names. -/
theorem join_determines_names (xs ys : List GoString)
    (hx : ∀ x ∈ xs, x ≠ "" ∧ ',' ∉ x.data) (hy : ∀ y ∈ ys, y ≠ "" ∧ ',' ∉ y.data)
    (h : stringsJoin (NameSet.ofAdds xs).Names.1 "," =
      stringsJoin (NameSet.ofAdds ys).Names.1 ",") :
    (NameSet.ofAdds xs).Names.1 = (NameSet.ofAdds ys).Names.1 ∧ ∀ x, x ∈ xs ↔ x ∈ ys := by
  obtain ⟨_, _, hmx⟩ := NameSet.ofAdds_Names xs
  obtain ⟨_, _, hmy⟩ := NameSet.ofAdds_Names ys
  have heq := stringsJoin_inj _ _ (fun x hm => hx x ((hmx x).1 hm))
    (fun y hm => hy y ((hmy y).1 hm)) h
  refine ⟨heq, fun x => ?_⟩
  rw [← hmx x, ← hmy x, heq]

/-- Witness of C15: the names `B`, `A` added in two orders, one with a repetition. -/
theorem join_determines_names_witness :
    (NameSet.ofAdds ["B", "A"]).Names.1 = (NameSet.ofAdds ["A", "B", "A"]).Names.1 ∧
      ∀ x, x ∈ ["B", "A"] ↔ x ∈ ["A", "B", "A"] :=
  join_determines_names ["B", "A"] ["A", "B", "A"] (by decide) (by decide) (by decide)

/-- C15 (counterexample). The sets `{"a,b"}` and `{"a","b"}` have different names and the
same digested string `a,b`, hence the same `Hash()` for every digest; so have the empty set
and the set `{""}`. -/
theorem join_collides_on_comma :
    stringsJoin (NameSet.ofAdds ["a,b"]).Names.1 "," = "a,b" ∧
    stringsJoin (NameSet.ofAdds ["a", "b"]).Names.1 "," = "a,b" ∧
    "a,b" ∈ (NameSet.ofAdds ["a,b"]).Names.1 ∧ "a,b" ∉ (NameSet.ofAdds ["a", "b"]).Names.1 ∧
    (∀ sha1hex : GoString → GoString,
      ((NameSet.ofAdds ["a,b"]).Hash sha1hex).1 = ((NameSet.ofAdds ["a", "b"]).Hash sha1hex).1) ∧
    stringsJoin (NameSet.ofAdds [""]).Names.1 "," = stringsJoin (NameSet.ofAdds []).Names.1 "," ∧
    (NameSet.ofAdds [""]).Names.1 ≠ (NameSet.ofAdds []).Names.1 := by
  refine ⟨by decide, by decide, by decide, by decide, ?_, by decide, by decide⟩
  intro sha1hex
  have h : stringsJoin (NameSet.ofAdds ["a,b"]).Names.1 "," =
      stringsJoin (NameSet.ofAdds ["a", "b"]).Names.1 "," := by decide
  unfold NameSet.Hash
  rw [h]

end Translate
